import Mathlib

/-!
# Verification of the Alconna analyzer engine

A shallow embedding, in Lean 4, of the parts of the Alconna command-line
parser that the specification's claims are about:

* `levenshtein_norm` and the fuzzy matcher (`src/arclet/alconna/util.py`,
  `_internal/_handlers.py`);
* the `LruCache` (`src/arclet/alconna/util.py`);
* the option/argument handlers (`_internal/_handlers.py`): `_validate`,
  `step_varpos`, `analyse_args`, `handle_option`, `handle_action`,
  `analyse_option`, `analyse_compact_params`, `analyse_header`,
  `_handle_fuzzy`, `_handle_shortcut_reg`.

The `Argv` token stream, the `escape`/`unescape` helpers and the
`levenshtein` similarity of `_internal/_util.py`, and the data classes
`OptionResult`/`Action` are not part of the source tree; where needed they
are modelled from the specification (each such definition carries a
`Modelled from the spec:` doc comment).

Python dictionaries are modelled as association lists with the usual
lookup/insert/update operations, Python exceptions as an `Except` monad
whose error value carries the mutable `Argv` state at raise time, and
Python floats as rationals.
-/

/-! ## Levenshtein-normalised similarity (`util.py`, lines 81-92)

The source builds the full `(l_s+1) × (l_t+1)` dynamic-programming matrix:

```
matrix = [[(i if j == 0 else j) for j in t_range] for i in s_range]
for i in s_range[1:]:
    for j in t_range[1:]:
        sub_distance = matrix[i-1][j-1] + (0 if source[i-1] == target[j-1] else 1)
        matrix[i][j] = min(matrix[i-1][j] + 1, matrix[i][j-1] + 1, sub_distance)
return 1 - float(matrix[l_s][l_t]) / max(l_s, l_t)
```

`levFun s t i j` is cell `matrix[i][j]` of that recurrence: row `i+1` is
computed from row `i` exactly as the nested loops do.  Zero-based
`source[i-1]`/`target[j-1]` become `s.getD (i-1)`/`t.getD (j-1)`. -/

/-- One row step of the DP matrix: given row `i` as the function `di`,
compute row `i+1` (cell `j`), following the loop body of
`levenshtein_norm`. -/
def levNext (s t : List Char) (i : ℕ) (di : ℕ → ℕ) : ℕ → ℕ
  | 0 => i + 1
  | j + 1 =>
    min (min (di (j + 1) + 1) (levNext s t i di j + 1))
      (di j + if s.getD i ' ' = t.getD j ' ' then 0 else 1)

/-- Cell `matrix[i][j]` of the `levenshtein_norm` DP matrix. -/
def levFun (s t : List Char) : ℕ → ℕ → ℕ
  | 0 => fun j => j
  | i + 1 => levNext s t i (levFun s t i)

/-- `util.py` `levenshtein_norm(source, target)`:
`1 - float(matrix[l_s][l_t]) / max(l_s, l_t)`, with Python's float
arithmetic modelled over `ℚ`. -/
def levenshtein_norm (source target : String) : ℚ :=
  1 - (levFun source.toList target.toList source.toList.length target.toList.length : ℚ) /
      (max source.toList.length target.toList.length : ℚ)

theorem levFun_le (s t : List Char) : ∀ i j, levFun s t i j ≤ max i j := by
  intro i
  induction i with
  | zero =>
    intro j
    simpa [levFun] using Nat.le_max_right 0 j
  | succ i ih =>
    intro j
    induction j with
    | zero => simp [levFun, levNext]
    | succ j ihj =>
      have hcost : (if s.getD i ' ' = t.getD j ' ' then 0 else 1) ≤ 1 := by
        split <;> omega
      have h3 : levFun s t i j + (if s.getD i ' ' = t.getD j ' ' then 0 else 1) ≤ max i j + 1 :=
        Nat.add_le_add (ih j) hcost
      have hmin : levFun s t (i + 1) (j + 1) ≤
          levFun s t i j + (if s.getD i ' ' = t.getD j ' ' then 0 else 1) := by
        simpa [levFun, levNext] using
          (min_le_right
            (min (levFun s t i (j + 1) + 1) (levNext s t i (levFun s t i) j + 1))
            (levFun s t i j + if s.getD i ' ' = t.getD j ' ' then 0 else 1))
      have : levFun s t (i + 1) (j + 1) ≤ max i j + 1 := le_trans hmin h3
      simpa [Nat.succ_max_succ] using this

theorem levFun_diag (s t : List Char) :
    ∀ i, (∀ k, k < i → s.getD k ' ' = t.getD k ' ') → levFun s t i i = 0 := by
  intro i
  induction i with
  | zero => intro _; simp [levFun]
  | succ i ih =>
    intro h
    have hz : levFun s t i i = 0 := ih fun k hk => h k (Nat.lt_succ_of_lt hk)
    have hc : s.getD i ' ' = t.getD i ' ' := h i (Nat.lt_succ_self i)
    simp only [levFun, levNext, hz, hc, if_pos, Nat.zero_add]
    simp

theorem levFun_eq_zero (s t : List Char) :
    ∀ i j, levFun s t i j = 0 → i = j ∧ ∀ k, k < i → s.getD k ' ' = t.getD k ' ' := by
  intro i
  induction i with
  | zero =>
    intro j hj
    have : j = 0 := by simpa [levFun] using hj
    exact ⟨this.symm, by omega⟩
  | succ i ih =>
    intro j hj
    cases j with
    | zero =>
      exfalso
      simp [levFun, levNext] at hj
    | succ j =>
      have hj' : min (min (levFun s t i (j + 1) + 1) (levNext s t i (levFun s t i) j + 1))
          (levFun s t i j + if s.getD i ' ' = t.getD j ' ' then 0 else 1) = 0 := by
        simpa [levFun, levNext] using hj
      have hthird : levFun s t i j + (if s.getD i ' ' = t.getD j ' ' then 0 else 1) = 0 := by
        rcases Nat.min_eq_zero_iff.mp hj' with h | h
        · rcases Nat.min_eq_zero_iff.mp h with h' | h' <;> omega
        · exact h
      have hC : levFun s t i j = 0 := by omega
      have hcost : (if s.getD i ' ' = t.getD j ' ' then 0 else 1) = 0 := by omega
      have hchar : s.getD i ' ' = t.getD j ' ' := by
        by_contra hne
        rw [if_neg hne] at hcost
        omega
      obtain ⟨hij, hpre⟩ := ih j hC
      subst hij
      refine ⟨rfl, fun k hk => ?_⟩
      rcases Nat.lt_succ_iff_lt_or_eq.mp hk with h | h
      · exact hpre k h
      · subst h; exact hchar

theorem listEqOfGetD (s : List Char) :
    ∀ t : List Char, s.length = t.length →
      (∀ k, k < s.length → s.getD k ' ' = t.getD k ' ') → s = t := by
  induction s with
  | nil =>
    intro t hlen _
    cases t with
    | nil => rfl
    | cons a t => simp at hlen
  | cons a s ih =>
    intro t hlen h
    cases t with
    | nil => simp at hlen
    | cons b t =>
      have h0 : a = b := by simpa using h 0 (by simp)
      have hrest : s = t := by
        refine ih t (by simpa using hlen) fun k hk => ?_
        simpa using h (k + 1) (by simpa using Nat.succ_lt_succ hk)
      rw [h0, hrest]

theorem stringNeEmptyToList {s : String} (h : s ≠ "") : s.toList ≠ [] := by
  intro hl
  apply h
  cases s with
  | mk data =>
    have : data = [] := hl
    simp [this]

/-- C9: for every pair of strings with at least one non-empty,
`levenshtein_norm` lies in `[0, 1]` and equals `1` exactly when the two
strings are equal. -/
theorem levenshtein_norm_range_eq (source target : String)
    (h : source ≠ "" ∨ target ≠ "") :
    0 ≤ levenshtein_norm source target ∧ levenshtein_norm source target ≤ 1 ∧
      (levenshtein_norm source target = 1 ↔ source = target) := by
  obtain ⟨s⟩ := source
  obtain ⟨t⟩ := target
  have hsl : (String.mk s).toList = s := rfl
  have htl : (String.mk t).toList = t := rfl
  have hM : 0 < max s.length t.length := by
    rcases h with h | h
    · have h1 : s ≠ [] := stringNeEmptyToList h
      have : 0 < s.length := List.length_pos.mpr h1
      omega
    · have h1 : t ≠ [] := stringNeEmptyToList h
      have : 0 < t.length := List.length_pos.mpr h1
      omega
  have hD : levFun s t s.length t.length ≤ max s.length t.length :=
    levFun_le s t s.length t.length
  have hMQ : (0 : ℚ) < ((max s.length t.length : ℕ) : ℚ) := by exact_mod_cast hM
  have hMQ' : ((max s.length t.length : ℕ) : ℚ) ≠ 0 := ne_of_gt hMQ
  have hDQ : (0 : ℚ) ≤ (levFun s t s.length t.length : ℚ) := by positivity
  have hfrac1 : (levFun s t s.length t.length : ℚ) / ((max s.length t.length : ℕ) : ℚ) ≤ 1 := by
    rw [div_le_one hMQ]
    exact_mod_cast hD
  have hval : levenshtein_norm (String.mk s) (String.mk t) =
      1 - (levFun s t s.length t.length : ℚ) / ((max s.length t.length : ℕ) : ℚ) := by
    rw [levenshtein_norm]
    push_cast
    rfl
  have hfrac0 : (0 : ℚ) ≤ (levFun s t s.length t.length : ℚ) / ((max s.length t.length : ℕ) : ℚ) :=
    div_nonneg hDQ (le_of_lt hMQ)
  refine ⟨by rw [hval]; linarith, by rw [hval]; linarith, ?_⟩
  constructor
  · intro h1
    rw [hval] at h1
    have hfrac : (levFun s t s.length t.length : ℚ) / ((max s.length t.length : ℕ) : ℚ) = 0 := by
      linarith
    have hDz : (levFun s t s.length t.length : ℚ) = 0 := by
      rcases div_eq_zero_iff.mp hfrac with h' | h'
      · exact h'
      · exact absurd h' hMQ'
    have hDz' : levFun s t s.length t.length = 0 := by exact_mod_cast hDz
    obtain ⟨hlen, hpre⟩ := levFun_eq_zero s t s.length t.length hDz'
    have hst : s = t := listEqOfGetD s t hlen hpre
    rw [hst]
  · intro heq
    have hst : s = t := by
      injection heq
    subst hst
    have hz : levFun s s s.length s.length = 0 :=
      levFun_diag s s s.length fun k _ => rfl
    rw [hval, hz]
    push_cast
    field_simp

/-- Witness for C9 at a concrete input. -/
theorem levenshtein_norm_range_eq_witness :
    0 ≤ levenshtein_norm "ab" "ab" ∧ levenshtein_norm "ab" "ab" ≤ 1 ∧
      (levenshtein_norm "ab" "ab" = 1 ↔ ("ab" : String) = "ab") :=
  levenshtein_norm_range_eq "ab" "ab" (Or.inl (by decide))

/-! ## LruCache (`util.py`, lines 99-193)

The Python class keeps an `OrderedDict` `cache`, a separate counter
`__size`, and a `record` of timestamps.  `record` only stores insertion
times and expirations and never influences which entries are present, so
it is omitted here.  Note two quirks kept faithfully from the source:
`delete` pops from the dict but does *not* decrement `__size`, and
`clear` empties the dict without resetting `__size`; consequently
`__size` may overcount the number of stored entries. -/

/-- Lookup in an association list (Python `dict[key]` on a dict with
unique keys). -/
def alookup {K V : Type} [DecidableEq K] : List (K × V) → K → Option V
  | [], _ => none
  | (k', v) :: rest, k => if k = k' then some v else alookup rest k

/-- Remove the entry of `k` (Python `dict.pop(key)` on a dict with unique
keys), preserving the order of the remaining entries. -/
def aerase {K V : Type} [DecidableEq K] : List (K × V) → K → List (K × V)
  | [], _ => []
  | (k', v) :: rest, k => if k = k' then rest else (k', v) :: aerase rest k

/-- Update the value stored at `k` in place (Python `dict[key] = f(dict[key])`),
preserving entry order. -/
def aupdate {K V : Type} [DecidableEq K] : List (K × V) → K → (V → V) → List (K × V)
  | [], _, _ => []
  | (k', v) :: rest, k, f => if k = k' then (k', f v) :: rest else (k', v) :: aupdate rest k f

/-- The `LruCache` state: `cache` is the `OrderedDict` (entries in
insertion/access order, least recently used first), `size` is the
`__size` counter. -/
structure LruCache (K V : Type) where
  maxSize : Int
  cache : List (K × V)
  size : ℕ

/-- `LruCache.__getitem__`: on a hit, `move_to_end(key)` then return the
value; on a miss raise `KeyError` (the state is unchanged). -/
def LruCache.getOp {K V : Type} [DecidableEq K] (c : LruCache K V) (k : K) :
    Option V × LruCache K V :=
  match alookup c.cache k with
  | some v => (some v, { c with cache := aerase c.cache k ++ [(k, v)] })
  | none => (none, c)

/-- `LruCache.set`: an existing key returns immediately (no value update,
no reorder); otherwise append the entry, bump `__size`, and when
`0 < max_size < __size` pop the first (least recently used) entry and
decrement `__size`. -/
def LruCache.setOp {K V : Type} [DecidableEq K] (c : LruCache K V) (k : K) (v : V) :
    LruCache K V :=
  if (alookup c.cache k).isSome then c
  else
    let cache1 := c.cache ++ [(k, v)]
    let size1 := c.size + 1
    if 0 < c.maxSize ∧ c.maxSize < (size1 : Int) then
      { c with cache := cache1.tail, size := size1 - 1 }
    else
      { c with cache := cache1, size := size1 }

/-- `LruCache.delete`: pop the key from the dict (raising `KeyError` when
absent leaves the state unchanged).  `__size` is not decremented in the
source. -/
def LruCache.deleteOp {K V : Type} [DecidableEq K] (c : LruCache K V) (k : K) :
    LruCache K V :=
  if (alookup c.cache k).isSome then { c with cache := aerase c.cache k } else c

/-- `LruCache.clear`: empty the dict; `__size` is not reset in the source. -/
def LruCache.clearOp {K V : Type} (c : LruCache K V) : LruCache K V :=
  { c with cache := [] }

/-- An operation on the cache: `set`, `get`, `delete` or `clear`. -/
inductive LruOp (K V : Type) where
  | set (k : K) (v : V)
  | get (k : K)
  | del (k : K)
  | clear

def LruCache.applyOp {K V : Type} [DecidableEq K] (c : LruCache K V) : LruOp K V → LruCache K V
  | .set k v => c.setOp k v
  | .get k => (c.getOp k).2
  | .del k => c.deleteOp k
  | .clear => c.clearOp

/-- A freshly constructed cache (`LruCache(max_size)`). -/
def LruCache.start (K V : Type) (m : Int) : LruCache K V := ⟨m, [], 0⟩

/-- Run a sequence of operations. -/
def LruCache.run {K V : Type} [DecidableEq K] (c : LruCache K V) (ops : List (LruOp K V)) :
    LruCache K V :=
  ops.foldl LruCache.applyOp c

/-- The invariant maintained by every operation: the `__size` counter
never undercounts the dict, and with a positive `max_size` the dict holds
at most `max_size` entries. -/
def LruCache.inv {K V : Type} (c : LruCache K V) : Prop :=
  c.cache.length ≤ c.size ∧ (0 < c.maxSize → (c.cache.length : Int) ≤ c.maxSize)

theorem aerase_length {K V : Type} [DecidableEq K] (l : List (K × V)) (k : K) :
    (alookup l k).isSome → (aerase l k).length + 1 = l.length := by
  induction l with
  | nil => intro h; simp [alookup] at h
  | cons p rest ih =>
    obtain ⟨k', v⟩ := p
    intro h
    by_cases hk : k = k'
    · simp [aerase, hk]
    · simp only [alookup, if_neg hk] at h
      simp [aerase, if_neg hk, ih h]

theorem lruCache_applyOp_maxSize {K V : Type} [DecidableEq K] (c : LruCache K V)
    (op : LruOp K V) : (c.applyOp op).maxSize = c.maxSize := by
  cases op with
  | set k v =>
    simp only [LruCache.applyOp, LruCache.setOp]
    split
    · rfl
    · split <;> rfl
  | get k =>
    simp only [LruCache.applyOp, LruCache.getOp]
    split <;> rfl
  | del k =>
    simp only [LruCache.applyOp, LruCache.deleteOp]
    split <;> rfl
  | clear => rfl

theorem lruCache_applyOp_inv {K V : Type} [DecidableEq K] (c : LruCache K V)
    (op : LruOp K V) (h : c.inv) : (c.applyOp op).inv := by
  obtain ⟨h1, h2⟩ := h
  cases op with
  | set k v =>
    simp only [LruCache.applyOp, LruCache.setOp]
    split
    · exact ⟨h1, h2⟩
    · split
      · rename_i hcond
        constructor
        · simp only [List.length_tail, List.length_append, List.length_singleton]
          omega
        · intro hpos
          have hlen : (c.cache ++ [(k, v)]).tail.length = c.cache.length := by
            simp only [List.length_tail, List.length_append, List.length_singleton]
            omega
          rw [hlen]
          rcases hcond with ⟨hpos', hlt⟩
          -- before the eviction the dict already respected the bound
          exact h2 hpos
      · rename_i hcond
        constructor
        · simp only [List.length_append, List.length_singleton]
          omega
        · intro hpos
          simp only [List.length_append, List.length_singleton]
          push_cast
          have : ¬ c.maxSize < ((c.size + 1 : ℕ) : Int) := by
            intro hc
            exact hcond ⟨hpos, hc⟩
          push_cast at this
          have hsz : ((c.cache.length : ℕ) : Int) ≤ (c.size : Int) := by exact_mod_cast h1
          omega
  | get k =>
    simp only [LruCache.applyOp, LruCache.getOp]
    cases hl : alookup c.cache k with
    | none => exact ⟨h1, h2⟩
    | some v =>
      have hlen : (aerase c.cache k ++ [(k, v)]).length = c.cache.length := by
        have := aerase_length c.cache k (by rw [hl]; rfl)
        simp only [List.length_append, List.length_singleton]
        omega
      constructor
      · simpa [hlen] using h1
      · intro hpos
        rw [hlen]
        exact h2 hpos
  | del k =>
    simp only [LruCache.applyOp, LruCache.deleteOp]
    split
    · rename_i hl
      have herase := aerase_length c.cache k hl
      refine ⟨?_, fun hpos => ?_⟩
      · show (aerase c.cache k).length ≤ c.size
        omega
      · show ((aerase c.cache k).length : Int) ≤ c.maxSize
        have hb := h2 (by exact hpos)
        have hle : (aerase c.cache k).length ≤ c.cache.length := by omega
        have hle' : ((aerase c.cache k).length : Int) ≤ (c.cache.length : Int) := by
          exact_mod_cast hle
        exact le_trans hle' hb
    · exact ⟨h1, h2⟩
  | clear =>
    refine ⟨Nat.zero_le _, fun hpos => ?_⟩
    show ((List.length ([] : List (K × V)) : ℕ) : Int) ≤ c.maxSize
    have hpos' : 0 < c.maxSize := hpos
    simp only [List.length_nil, Nat.cast_zero]
    omega

theorem lruCache_run_inv {K V : Type} [DecidableEq K] (m : Int)
    (ops : List (LruOp K V)) :
    (LruCache.run (LruCache.start K V m) ops).inv ∧
      (LruCache.run (LruCache.start K V m) ops).maxSize = m := by
  suffices h : ∀ (c : LruCache K V), c.inv → (LruCache.run c ops).inv ∧
      (LruCache.run c ops).maxSize = c.maxSize by
    refine h _ ⟨Nat.le_refl 0, fun hpos => ?_⟩
    simp only [LruCache.start, List.length_nil, Nat.cast_zero] at hpos ⊢
    omega
  induction ops with
  | nil => intro c hc; exact ⟨hc, rfl⟩
  | cons op rest ih =>
    intro c hc
    have h1 := lruCache_applyOp_inv c op hc
    have h2 := lruCache_applyOp_maxSize c op
    have := ih (c.applyOp op) h1
    exact ⟨this.1, this.2.trans h2⟩

theorem tail_append_singleton {α : Type} (l : List α) (x : α) (h : l ≠ []) :
    (l ++ [x]).tail = l.tail ++ [x] := by
  cases l with
  | nil => exact absurd rfl h
  | cons a rest => rfl

/-- C10: starting from a cache constructed with `max_size > 0`, after any
sequence of `set`/`get`/`delete`/`clear` operations the number of stored
entries is at most `max_size`; and a `set` that inserts a new key into a
full cache evicts exactly the least-recently-used entry (the head of the
order list) and appends the new entry at the most-recent end. -/
theorem lruCache_bounded_and_evicts_lru {K V : Type} [DecidableEq K] (m : Int)
    (hm : 0 < m) (ops : List (LruOp K V)) :
    ((LruCache.run (LruCache.start K V m) ops).cache.length : Int) ≤ m ∧
      ∀ k v, ((LruCache.run (LruCache.start K V m) ops).cache.length : Int) = m →
        alookup (LruCache.run (LruCache.start K V m) ops).cache k = none →
        ((LruCache.run (LruCache.start K V m) ops).setOp k v).cache =
          (LruCache.run (LruCache.start K V m) ops).cache.tail ++ [(k, v)] := by
  obtain ⟨⟨hsz, hbound⟩, hmax⟩ := lruCache_run_inv (K := K) (V := V) m ops
  rw [hmax] at hbound
  refine ⟨hbound hm, fun k v hfull hnone => ?_⟩
  set c := LruCache.run (LruCache.start K V m) ops with hc
  have hnotmem : ¬ (alookup c.cache k).isSome := by rw [hnone]; simp
  have hcond : 0 < c.maxSize ∧ c.maxSize < ((c.size + 1 : ℕ) : Int) := by
    rw [hmax]
    refine ⟨hm, ?_⟩
    have : (c.cache.length : Int) ≤ (c.size : Int) := by exact_mod_cast hsz
    omega
  have hne : c.cache ≠ [] := by
    intro hnil
    rw [hnil] at hfull
    simp at hfull
    omega
  simp only [LruCache.setOp, if_neg hnotmem, if_pos hcond]
  exact tail_append_singleton c.cache (k, v) hne

/-- Witness for C10 at a concrete cache and operation sequence. -/
theorem lruCache_bounded_and_evicts_lru_witness :
    ((LruCache.run (LruCache.start ℕ ℕ 2)
        [LruOp.set 1 10, LruOp.set 2 20]).cache.length : Int) ≤ 2 ∧
      ((LruCache.run (LruCache.start ℕ ℕ 2)
          [LruOp.set 1 10, LruOp.set 2 20]).setOp 5 50).cache =
        (LruCache.run (LruCache.start ℕ ℕ 2)
          [LruOp.set 1 10, LruOp.set 2 20]).cache.tail ++ [(5, 50)] := by
  have h := lruCache_bounded_and_evicts_lru (K := ℕ) (V := ℕ) 2 (by decide)
    [LruOp.set 1 10, LruOp.set 2 20]
  exact ⟨h.1, h.2 5 50 (by decide) (by decide)⟩

/-! ## Tokens, values, errors, and the Argv stream

`_internal/_handlers.py` operates on an `Argv` defined in
`_internal/_argv.py`, which is not part of the source tree; the stream
and its operations are modelled from the specification (§3 "Argv" and
§4.1).  All scopes in the claims below use the same single-space
separators, so the one-shot sub-split that `next(seps)` performs for
differing separators never fires and `next` is modelled as popping the
current token. -/

/-- A unit of the heterogeneous input: a string token or an opaque
non-text object (spec §6: "each segment is either a string or an opaque
value"). -/
inductive DToken where
  | str (s : String)
  | obj (n : ℕ)
deriving DecidableEq

/-- Python `str(x)`: identity on strings; opaque objects get an arbitrary
printed form (its exact shape is irrelevant to the claims). -/
def DToken.toStr : DToken → String
  | .str s => s
  | .obj n => "<obj " ++ toString n ++ ">"

/-- Whether `not token` holds in Python (the empty string; opaque tokens
are treated as truthy). -/
def DToken.isEmpty : DToken → Bool
  | .str s => s = ""
  | .obj _ => false

/-- Python values produced by the handlers: raw tokens, strings, ints,
`None`, tuples, lists, and token lists (the output of `Argv.converter`). -/
inductive PVal where
  | tok (t : DToken)
  | str (s : String)
  | num (n : ℕ)
  | pnone
  | tup (vs : List PVal)
  | list (vs : List PVal)
  | toks (ts : List DToken)
  | pdict (entries : List (String × PVal))

/-- The exceptions of `exceptions.py` that the handlers raise.
`fuzzyMatchSuccess` records the two keyword arguments of the
`lang.require("fuzzy", "matched").format(source=..., target=...)` call
that builds its message. -/
inductive ParseErr where
  | invalidParam (msg : String)
  | argumentMissing (msg : String)
  | fuzzyMatchSuccess (source target : String)
  | specialOptionTriggered (kind : String)
deriving DecidableEq

/-- The class of the object currently held in `argv.context`
(`analyse_compact_params` tests `argv.context.__class__ is Arg`). -/
inductive Ctx where
  | cnone
  | carg
  | copt
deriving DecidableEq

/-- Modelled from the spec: the `Argv` token stream (§3), restricted to
the pieces the handlers read — the token vector with its cursor, the
ambient context, the special-keyword map and the disabled builtin
options, the registered `param_ids`, the fuzzy-match configuration, the
`config.remainders` token set, and the `converter` applied to released
token lists. -/
structure Argv where
  data : List DToken
  idx : ℕ
  ctx : Ctx
  specials : List (String × String)
  disabledBuiltins : List String
  paramIds : List String
  fuzzyMatch : Bool
  fuzzyThreshold : ℚ
  remainders : List String
  converter : List DToken → PVal

/-- `argv.ndata`. -/
def Argv.ndata (a : Argv) : ℕ := a.data.length

/-- Modelled from the spec (§4.1): `next()` returns the next token and
whether it is a string, advancing the cursor; an exhausted stream yields
the empty string without advancing. -/
def Argv.next (a : Argv) : DToken × Bool × Argv :=
  if h : a.idx < a.data.length then
    let t := a.data.get ⟨a.idx, h⟩
    (t, (match t with | .str _ => true | .obj _ => false), { a with idx := a.idx + 1 })
  else (.str "", true, a)

/-- Modelled from the spec (§4.1): `rollback(token, replace)` decrements
the cursor and, when `replace` is set, overwrites the pushed-back slot
(used by compact matching).  Rolling back the empty token — nothing was
consumed — is a no-op. -/
def Argv.rollback (a : Argv) (t : DToken) (replace : Bool) : Argv :=
  if t = .str "" then a
  else if replace then { a with idx := a.idx - 1, data := a.data.set (a.idx - 1) t }
  else { a with idx := a.idx - 1 }

/-- Modelled from the spec (§4.1): `release()` returns the remaining
tokens, consuming them. -/
def Argv.release (a : Argv) : List DToken × Argv :=
  (a.data.drop a.idx, { a with idx := a.data.length })

/-- Modelled from the spec (§4.1): `release(recover=True)` returns the
remaining tokens without advancing. -/
def Argv.releaseRecover (a : Argv) : List DToken := a.data.drop a.idx

/-- Modelled from the spec (§4.1/§5): `data_set()` snapshots
`(raw_data_view, current_index)` before a speculative attempt. -/
def Argv.dataSet (a : Argv) : List DToken × ℕ := (a.data, a.idx)

/-- Modelled from the spec (§4.1/§5): `data_reset(snap, idx)` restores a
snapshot taken by `data_set`; the other mutable fields (such as the
context) keep their current values. -/
def Argv.dataReset (a : Argv) (d : List DToken) (i : ℕ) : Argv :=
  { a with data := d, idx := i }

/-- `may_arg in argv.special` / `argv.special[may_arg]`. -/
def Argv.specialOf (a : Argv) (s : String) : Option String := alookup a.specials s

/-! ## Value patterns and argument slots

The value-pattern library (`nepattern`) is external; the spec (§1) fixes
its contract to `Pattern.validate(text) -> {valid|error}`.  A pattern is
modelled as that abstract validator plus the attributes the handlers
read: its `alias` (the wildcard test `value.alias == "*"`) and whether it
is one of the sentinels `STRING` / `ANY` / `AnyString` special-cased by
`_validate`. -/

inductive PatKind where
  | kString
  | kAny
  | kAnyString
  | kCustom
deriving DecidableEq

/-- Modelled from the spec (§1): an abstract value pattern. `validate`
returns `some converted` on "valid" and `none` on "error". -/
structure Pat where
  palias : Option String
  kind : PatKind
  validate : DToken → Option PVal

/-- The result of `nepattern` validation with a fallback default: flag
"valid", flag "default" (validation failed but a default was supplied),
or flag "error".  Modelled from the spec's validate contract extended
with the default fallback that `_validate` passes in. -/
inductive VRes where
  | valid (v : PVal)
  | defaulted (v : PVal)
  | error

def patValidateWithDefault (p : Pat) (dv : Option PVal) (t : DToken) : VRes :=
  match p.validate t with
  | some v => .valid v
  | none => match dv with
    | some d => .defaulted d
    | none => .error

/-- A normal (positional) argument slot: `Arg` restricted to the fields
the handlers read.  `default = none` models `field.default is Empty`. -/
structure ArgN where
  name : String
  value : Pat
  default : Option PVal
  optional : Bool

/-- The declared default of a variadic-positional arg, distinguishing
iterable from non-iterable defaults (`step_varpos` coerces a
non-iterable default to `()`). -/
inductive VDefault where
  | vnone
  | viter (vs : List PVal)
  | vnoniter (v : PVal)

/-- The arg part of a variadic-positional slot. -/
structure ArgV where
  name : String
  default : VDefault

/-- `MultiVar`: base pattern, flag (`"+"` or `"*"`), and length bound
(`-1` for unbounded). -/
structure MVar where
  base : Pat
  flag : String
  length : Int

/-- A keyword-only argument slot: name, the `KeyWordVar` separator and
base pattern, whether the base is a `KWBool`, and field data. -/
structure ArgK where
  name : String
  sep : Char
  base : Pat
  kwbool : Bool
  default : Option PVal
  optional : Bool

/-- The declared default of a variadic-keyword arg (`step_varkey` coerces
a non-dict default to `{}`). -/
inductive DDefault where
  | dnone
  | ddict (entries : List (String × PVal))
  | dother (v : PVal)

/-- `MultiKeyWordVar`: the `KeyWordVar` separator, the value pattern, the
flag and length bound. -/
structure MKVar where
  sep : Char
  base : Pat
  flag : String
  length : Int

/-- The arg part of a variadic-keyword slot. -/
structure ArgVK where
  name : String
  default : DDefault

/-- The arg part of an unpack slot; `origin` is the constructor
`arg.value.origin(**parsed)`. -/
structure ArgU where
  name : String
  default : Option PVal
  optional : Bool
  origin : List (String × PVal) → PVal

/-- `Args.argument`, bucketed as in the data model (§3): normals, at most
one nested unpack, variadic positionals, keyword-only args, variadic
keywords. -/
inductive ArgsSpec where
  | mk (normal : List ArgN) (unpack : Option (ArgU × ArgsSpec))
      (varsPositional : List (MVar × ArgV)) (keywordOnly : List ArgK)
      (varsKeyword : List (MKVar × ArgVK))

def ArgsSpec.normal : ArgsSpec → List ArgN
  | .mk n _ _ _ _ => n

def ArgsSpec.unpack : ArgsSpec → Option (ArgU × ArgsSpec)
  | .mk _ u _ _ _ => u

def ArgsSpec.varsPositional : ArgsSpec → List (MVar × ArgV)
  | .mk _ _ v _ _ => v

def ArgsSpec.keywordOnly : ArgsSpec → List ArgK
  | .mk _ _ _ k _ => k

def ArgsSpec.varsKeyword : ArgsSpec → List (MKVar × ArgVK)
  | .mk _ _ _ _ v => v

/-- The parse result dict: insertion-ordered, unique keys. -/
abbrev PResult := List (String × PVal)

/-- `result[name] = v` on a dict: overwrite in place or append. -/
def rinsert (r : PResult) (k : String) (v : PVal) : PResult :=
  if (alookup r k).isSome then aupdate r k (fun _ => v) else r ++ [(k, v)]

/-! ## String helpers used by the handlers

`tarina.split_once` is an external helper; the repository carries its own
parallel implementation in `util.py` (lines 26-44), which is embedded
here (quotation marks suspend splitting).  `pat = re.compile
("(?:-*no)?-*(?P<name>.+)")` (line 26 of `_handlers.py`) is embedded as
`patName` with Python's backtracking semantics. -/

/-- The characters kept by `util.py`'s `split_once` before the first
unquoted separator. -/
def splitOnceOut : List Char → List Char → Option Char → List Char
  | [], _, _ => []
  | c :: rest, seps, q =>
    let q' := if c = '\'' ∨ c = '"' then
        (match q with
         | none => some c
         | some qc => if c = qc then none else some qc)
      else q
    if c ∈ seps ∧ q' = none then []
    else c :: splitOnceOut rest seps q'

/-- `split_once(text, separates)`: the text before the first unquoted
separator, and the remainder after it. -/
def splitOnce (text : String) (seps : List Char) : String × String :=
  let out := splitOnceOut text.toList seps none
  (String.mk out, String.mk (text.toList.drop (out.length + 1)))

/-- The `.+` tail of the optional `(?:-*no)?` group: greedy dashes, but
backtracking leaves one dash for `.+` when everything after `no` is
dashes. -/
def chompName (cs : List Char) : Option (List Char) :=
  let rest := cs.dropWhile (· = '-')
  if rest = [] then (if cs = [] then none else some ['-']) else some rest

/-- `pat.match(s)["name"]` for `pat = (?:-*no)?-*(?P<name>.+)`: strip
leading dashes, strip an optional `no` (when at least one character
remains for `.+`), strip further dashes.  The empty string does not match
`pat` (unreachable in the handlers); it is mapped to itself. -/
def patName (s : String) : String :=
  let stripped := s.toList.dropWhile (· = '-')
  match (if stripped.take 2 = ['n', 'o'] then chompName (stripped.drop 2) else none) with
  | some n => String.mk n
  | none =>
    if stripped = [] then (if s.toList = [] then "" else "-")
    else String.mk stripped

/-! ## `_validate` and the `Args` steps (`_handlers.py` lines 29-234) -/

/-- The special-keyword test repeated at the top of each consumption
loop: `if _str and may_arg in argv.special:` followed by
`if argv.special[may_arg] not in argv.namespace.disable_builtin_options:
raise SpecialOptionTriggered(...)`; a disabled special falls through. -/
def specialHit (a : Argv) (tok : DToken) (strq : Bool) : Option String :=
  if strq then
    match a.specialOf tok.toStr with
    | some s => if s ∈ a.disabledBuiltins then none else some s
    | none => none
  else none

/-- `_validate(argv, target, value, result, arg, _str)` (lines 29-44):
sentinel STRING/ANY/AnyString short-cuts, then validation with the field
default; any non-"valid" flag rolls the token back; "error" on a
non-optional arg raises `InvalidParam`. -/
def handlers_validate (argv : Argv) (tname : String) (toptional : Bool)
    (tdefault : Option PVal) (value : Pat) (result : PResult) (arg : DToken)
    (strq : Bool) : Except (ParseErr × Argv) (PResult × Argv) :=
  if (value.kind = .kString ∧ strq) ∨ value.kind = .kAny then
    .ok (rinsert result tname (.tok arg), argv)
  else if value.kind = .kAnyString then
    .ok (rinsert result tname (.str arg.toStr), argv)
  else
    match patValidateWithDefault value tdefault arg with
    | .valid v => .ok (rinsert result tname v, argv)
    | .defaulted d => .ok (rinsert result tname d, argv.rollback arg false)
    | .error =>
      if toptional then .ok (result, argv.rollback arg false)
      else .error (.invalidParam ("unmatch:" ++ arg.toStr), argv.rollback arg false)

/-- `args.argument.vars_keyword and vars_keyword[0][0].base.sep in
may_arg` (line 68): the first variadic-keyword separator occurs in the
token. -/
def vkwSepHit (spec : ArgsSpec) (s : String) : Bool :=
  match spec.varsKeyword.head? with
  | some vk => s.toList.contains vk.1.sep
  | none => false

/-- The collection loop of `step_varpos` (lines 55-77).  `fuel` only
bounds the recursion; it starts above the number of remaining tokens and
every continuing iteration consumes a token, so it never runs out. -/
def step_varpos_loop (spec : ArgsSpec) (mv : MVar) : ℕ → Argv → List PVal → ℕ →
    Except (ParseErr × Argv) (List PVal × Argv)
  | 0, argv, acc, _ => .ok (acc, argv)
  | fuel + 1, argv, acc, count =>
    if argv.idx = argv.ndata then .ok (acc, argv)
    else
      let nx := argv.next
      let may_arg := nx.1
      let strq := nx.2.1
      let argv1 := nx.2.2
      match specialHit argv1 may_arg strq with
      | some s => .error (.specialOptionTriggered s, argv1)
      | none =>
        if may_arg.isEmpty ∨ (strq ∧ may_arg.toStr ∈ argv1.paramIds) then
          .ok (acc, argv1.rollback may_arg false)
        else if strq ∧ may_arg.toStr ∈ argv1.remainders then
          .ok (acc, argv1)
        else if strq ∧ (¬spec.keywordOnly.isEmpty) ∧
            ((spec.keywordOnly.map (fun a => a.name)).contains
              (splitOnce (patName may_arg.toStr) (spec.keywordOnly.map (fun a => a.sep))).1) then
          .ok (acc, argv1.rollback may_arg false)
        else if strq ∧ vkwSepHit spec may_arg.toStr then
          .ok (acc, argv1.rollback may_arg false)
        else
          match mv.base.validate may_arg with
          | none => .ok (acc, argv1.rollback may_arg false)
          | some v =>
            if 0 < mv.length ∧ mv.length ≤ ((count + 1 : ℕ) : Int) then
              .ok (acc ++ [v], argv1)
            else
              step_varpos_loop spec mv fuel argv1 (acc ++ [v]) (count + 1)

/-- `step_varpos(argv, args, slot, result)` (lines 47-85): run the
collection loop, then — on an empty collection — use the declared default
when present (coerced to `()` when not iterable), else `()` for flag
`"*"`, else raise `ArgumentMissing`; finally bind the tuple. -/
def step_varpos (argv : Argv) (args : ArgsSpec) (slot : MVar × ArgV)
    (result : PResult) : Except (ParseErr × Argv) (PResult × Argv) :=
  let value := slot.1
  let arg := slot.2
  let argv0 := { argv with ctx := .carg }
  match step_varpos_loop args value (argv0.data.length + 1) argv0 [] 0 with
  | .error e => .error e
  | .ok (res, argv1) =>
    match res, arg.default with
    | [], .viter vs => .ok (rinsert result arg.name (.tup vs), argv1)
    | [], .vnoniter _ => .ok (rinsert result arg.name (.tup []), argv1)
    | [], .vnone =>
      if value.flag = "*" then .ok (rinsert result arg.name (.tup []), argv1)
      else .error (.argumentMissing ("missing:" ++ arg.name), argv1)
    | res, _ => .ok (rinsert result arg.name (.tup res), argv1)

/-- Lookup of a keyword-only arg by name
(`args.argument.keyword_only[_key]`). -/
def kwFind (ks : List ArgK) (n : String) : Option ArgK :=
  ks.find? (fun a => a.name == n)

/-- The loop of `step_keyword` (lines 135-168).  Every iteration either
exits or increments `count`, and the loop guard is `count < target`, so
`target + 1` fuel suffices. -/
def step_keyword_loop (spec : ArgsSpec) : ℕ → Argv → PResult → ℕ →
    Except (ParseErr × Argv) (PResult × ℕ × Argv)
  | 0, argv, result, count => .ok (result, count, argv)
  | fuel + 1, argv, result, count =>
    if count < spec.keywordOnly.length then
      let nx := argv.next
      let may_arg := nx.1
      let strq := nx.2.1
      let argv1 := nx.2.2
      match specialHit argv1 may_arg strq with
      | some s => .error (.specialOptionTriggered s, argv1)
      | none =>
        if may_arg.isEmpty ∨ ¬strq then
          .ok (result, count, argv1.rollback may_arg false)
        else if strq ∧ may_arg.toStr ∈ argv1.remainders then
          .ok (result, count, argv1)
        else
          let sp := splitOnce may_arg.toStr (spec.keywordOnly.map (fun a => a.sep))
          let key := sp.1
          let marg := sp.2
          let key1 := patName key
          let key2 := if (kwFind spec.keywordOnly key1).isSome then key1 else key
          match kwFind spec.keywordOnly key2 with
          | none =>
            let argv2 := argv1.rollback may_arg false
            if (¬spec.varsKeyword.isEmpty) ∨ (strq ∧ may_arg.toStr ∈ argv2.paramIds) then
              .ok (result, count, argv2)
            else
              match spec.keywordOnly.find? (fun a => (a.base.validate may_arg).isSome) with
              | some a =>
                .error (.invalidParam ("key_missing:" ++ may_arg.toStr ++ ":" ++ a.name), argv2)
              | none =>
                match spec.keywordOnly.find?
                    (fun a => levenshtein_norm key2 a.name ≥ argv2.fuzzyThreshold) with
                | some a => .error (.fuzzyMatchSuccess a.name key2, argv2)
                | none => .error (.invalidParam ("key_not_found:" ++ key2), argv2)
          | some arg =>
            let margTok : DToken × Argv :=
              if marg ≠ "" then (.str marg, argv1)
              else if arg.kwbool then (.str key, argv1)
              else
                let nx2 := argv1.next
                (nx2.1, nx2.2.2)
            match handlers_validate margTok.2 arg.name arg.optional arg.default arg.base
                result margTok.1 strq with
            | .error e => .error e
            | .ok (r1, argv3) => step_keyword_loop spec fuel argv3 r1 (count + 1)
    else .ok (result, count, argv)

/-- The fill-in pass after the `step_keyword` loop (lines 170-177):
untouched keyword-only args get their默认 default, and a missing
non-optional one raises `ArgumentMissing`. -/
def kw_fill (argv : Argv) : List ArgK → PResult → Except (ParseErr × Argv) PResult
  | [], r => .ok r
  | k :: rest, r =>
    if (alookup r k.name).isSome then kw_fill argv rest r
    else match k.default with
      | some d => kw_fill argv rest (rinsert r k.name d)
      | none =>
        if ¬k.optional then .error (.argumentMissing ("missing:" ++ k.name), argv)
        else kw_fill argv rest r

/-- `step_keyword(argv, args, result)` (lines 128-177). -/
def step_keyword (argv : Argv) (spec : ArgsSpec) (result : PResult) :
    Except (ParseErr × Argv) (PResult × Argv) :=
  match step_keyword_loop spec (spec.keywordOnly.length + 1) argv result 0 with
  | .error e => .error e
  | .ok (r, count, argv1) =>
    if count < spec.keywordOnly.length then
      match kw_fill argv1 spec.keywordOnly r with
      | .error e => .error e
      | .ok r1 => .ok (r1, argv1)
    else .ok (r, argv1)

/-- The loop of `step_varkey` (lines 95-117): greedily match
`key<sep>value` tokens. -/
def step_varkey_loop (mkv : MKVar) : ℕ → Argv → List (String × PVal) → ℕ →
    Except (ParseErr × Argv) (List (String × PVal) × Argv)
  | 0, argv, acc, _ => .ok (acc, argv)
  | fuel + 1, argv, acc, count =>
    if argv.idx = argv.ndata then .ok (acc, argv)
    else
      let nx := argv.next
      let may_arg := nx.1
      let strq := nx.2.1
      let argv1 := nx.2.2
      match specialHit argv1 may_arg strq with
      | some s => .error (.specialOptionTriggered s, argv1)
      | none =>
        if may_arg.isEmpty ∨ (strq ∧ may_arg.toStr ∈ argv1.paramIds) ∨ ¬strq then
          .ok (acc, argv1.rollback may_arg false)
        else if strq ∧ may_arg.toStr ∈ argv1.remainders then
          .ok (acc, argv1)
        else
          let cs := may_arg.toStr.toList
          let pre := cs.takeWhile (fun c => c ≠ mkv.sep)
          if pre.isEmpty ∨ pre.length = cs.length then
            .ok (acc, argv1.rollback may_arg false)
          else
            let key := String.mk pre
            let marg := String.mk (cs.drop (pre.length + 1))
            let margTok : DToken × Argv :=
              if marg ≠ "" then (.str marg, argv1)
              else
                let nx2 := argv1.next
                (nx2.1, nx2.2.2)
            match mkv.base.validate margTok.1 with
            | none => .ok (acc, margTok.2.rollback may_arg false)
            | some v =>
              if 0 < mkv.length ∧ mkv.length ≤ ((count + 1 : ℕ) : Int) then
                .ok (rinsert acc key v, margTok.2)
              else
                step_varkey_loop mkv fuel margTok.2 (rinsert acc key v) (count + 1)

/-- `step_varkey(argv, slot, result)` (lines 88-125). -/
def step_varkey (argv : Argv) (slot : MKVar × ArgVK) (result : PResult) :
    Except (ParseErr × Argv) (PResult × Argv) :=
  let value := slot.1
  let arg := slot.2
  let argv0 := { argv with ctx := .carg }
  match step_varkey_loop value (argv0.data.length + 1) argv0 [] 0 with
  | .error e => .error e
  | .ok (res, argv1) =>
    match res, arg.default with
    | [], .ddict entries => .ok (rinsert result arg.name (.pdict entries), argv1)
    | [], .dother _ => .ok (rinsert result arg.name (.pdict []), argv1)
    | [], .dnone =>
      if value.flag = "*" then .ok (rinsert result arg.name (.pdict []), argv1)
      else .error (.argumentMissing ("missing:" ++ arg.name), argv1)
    | res, _ => .ok (rinsert result arg.name (.pdict res), argv1)

/-- The outcome of the normal-args loop of `analyse_args`: either it fell
through to the later slots, or a wildcard arg returned early. -/
inductive NormalOut where
  | fell (r : PResult) (a : Argv)
  | wildcard (r : PResult) (a : Argv)

/-- The loop over `args.argument.normal` (lines 192-216): context, next
token, special check, registered-param-id skip for optional args, missing
token handling, the `alias == "*"` wildcard that absorbs the rest and
returns, and `_validate` for everything else. -/
def analyse_args_normal (argv : Argv) : List ArgN → PResult →
    Except (ParseErr × Argv) NormalOut
  | [], result => .ok (.fell result argv)
  | arg :: rest, result =>
    let argv0 := { argv with ctx := .carg }
    let nx := argv0.next
    let may_arg := nx.1
    let strq := nx.2.1
    let argv1 := nx.2.2
    match specialHit argv1 may_arg strq with
    | some s => .error (.specialOptionTriggered s, argv1)
    | none =>
      if strq ∧ may_arg.toStr ∈ argv1.paramIds ∧ arg.optional then
        let r1 := match arg.default with
          | some d => rinsert result arg.name d
          | none => result
        analyse_args_normal (argv1.rollback may_arg false) rest r1
      else if may_arg.isEmpty then
        let argv2 := argv1.rollback may_arg false
        match arg.default with
        | some d => analyse_args_normal argv2 rest (rinsert result arg.name d)
        | none =>
          if ¬arg.optional then .error (.argumentMissing ("missing:" ++ arg.name), argv2)
          else analyse_args_normal argv2 rest result
      else if arg.value.palias = some "*" then
        let argv2 := argv1.rollback may_arg false
        let rel := argv2.release
        let r1 := rinsert result arg.name (argv2.converter rel.1)
        .ok (.wildcard r1 { rel.2 with idx := rel.2.data.length })
      else
        match handlers_validate argv1 arg.name arg.optional arg.default arg.value result
            may_arg strq with
        | .error e => .error e
        | .ok (r1, argv2) => analyse_args_normal argv2 rest r1

/-- Fold of `step_varpos` over the variadic-positional slots
(`for slot in args.argument.vars_positional`). -/
def vpos_fold (spec : ArgsSpec) : List (MVar × ArgV) → Argv → PResult →
    Except (ParseErr × Argv) (PResult × Argv)
  | [], a, r => .ok (r, a)
  | slot :: rest, a, r =>
    match step_varpos a spec slot r with
    | .error e => .error e
    | .ok (r1, a1) => vpos_fold spec rest a1 r1

/-- Fold of `step_varkey` over the variadic-keyword slots. -/
def vkw_fold : List (MKVar × ArgVK) → Argv → PResult →
    Except (ParseErr × Argv) (PResult × Argv)
  | [], a, r => .ok (r, a)
  | slot :: rest, a, r =>
    match step_varkey a slot r with
    | .error e => .error e
    | .ok (r1, a1) => vkw_fold rest a1 r1

/-- The nesting depth of the (at most one per level) unpack slot; the
recursion depth of `analyse_args`. -/
def argsDepth : ArgsSpec → ℕ
  | .mk _ none _ _ _ => 1
  | .mk _ (some (_, u)) _ _ _ => argsDepth u + 1

/-- `analyse_args(argv, args)` (lines 180-234): the normal loop (with the
wildcard early return), the optional nested unpack (falling back to the
default on failure), the variadic positionals, the keyword-only block,
and the variadic keywords; finally the context is cleared.  The
recursion into the nested unpack `Args` is driven by a structural depth
counter; `analyse_args` below instantiates it with the exact nesting
depth, so the exhausted-counter branch is unreachable. -/
def analyse_args_fuel : ℕ → Argv → ArgsSpec → Except (ParseErr × Argv) (PResult × Argv)
  | fuel, argv, .mk normal unpack vpos kwonly vkw =>
    match analyse_args_normal argv normal [] with
    | .error e => .error e
    | .ok (.wildcard r a) => .ok (r, a)
    | .ok (.fell r a) =>
      let afterUnpack : Except (ParseErr × Argv) (PResult × Argv) :=
        match unpack with
        | none => .ok (r, a)
        | some (ua, uspec) =>
          match fuel with
          | 0 => .error (.invalidParam "unreachable", a)
          | fuel1 + 1 =>
            match analyse_args_fuel fuel1 a uspec with
            | .ok (ur, a2) => .ok (rinsert r ua.name (ua.origin ur), a2)
            | .error (e, aerr) =>
              match ua.default with
              | some d => .ok (rinsert r ua.name d, aerr)
              | none => if ¬ua.optional then .error (e, aerr) else .ok (r, aerr)
      match afterUnpack with
      | .error e => .error e
      | .ok (r1, a1) =>
        match vpos_fold (.mk normal unpack vpos kwonly vkw) vpos a1 r1 with
        | .error e => .error e
        | .ok (r2, a2) =>
          match (if kwonly.isEmpty then .ok (r2, a2)
                 else step_keyword a2 (.mk normal unpack vpos kwonly vkw) r2) with
          | .error e => .error e
          | .ok (r3, a3) =>
            match vkw_fold vkw a3 r3 with
            | .error e => .error e
            | .ok (r4, a4) => .ok (r4, { a4 with ctx := .cnone })

/-- `analyse_args(argv, args)`. -/
def analyse_args (argv : Argv) (spec : ArgsSpec) : Except (ParseErr × Argv) (PResult × Argv) :=
  analyse_args_fuel (argsDepth spec) argv spec

/-! ## Options (`_handlers.py` lines 237-340)

`OptionResult` and `Action` live in `model.py` / `action.py`, which are
not part of the source tree. -/

/-- Modelled from the spec (§3): `OptionResult: {value, args}`. -/
structure OptionResult where
  value : PVal
  args : PResult

/-- An `Option` restricted to the fields the handlers read.  `actionType`
is `action.type` (0 = store, 1 = append, 2 = count), `actionValue` is
`action.value`.  Aliases are kept as a list (the source iterates a set). -/
structure OptSpec where
  name : String
  dest : String
  aliases : List String
  actionType : ℕ
  actionValue : PVal
  compact : Bool
  nargs : ℕ
  args : ArgsSpec

/-- `s.lstrip("-")`. -/
def stripDashes (s : String) : String := String.mk (s.toList.dropWhile (· = '-'))

/-- Python `name.startswith(al)` (character-level). -/
def pyStartsWith (al name : String) : Bool := al.toList.isPrefixOf name.toList

/-- The count-action match of `handle_option` (lines 257-262): the first
alias `al` with `name.startswith(al)` and
`(len(name.lstrip("-")) / len(al.lstrip("-"))).is_integer()`, returning
that integer ratio.  An alias whose dash-stripped length is zero would
raise `ZeroDivisionError` in the source (option names cannot be all
dashes), so such aliases never match here. -/
def count_match (aliases : List String) (name : String) : Option ℕ :=
  aliases.findSome? fun al =>
    if pyStartsWith al name ∧ (stripDashes al).toList.length ≠ 0 ∧
        (stripDashes name).toList.length % (stripDashes al).toList.length = 0 then
      some ((stripDashes name).toList.length / (stripDashes al).toList.length)
    else none

/-- The compact match of `handle_option` (lines 251-256): the first alias
that `re.fullmatch(f"{al}(?P<rest>.*?)", name)` accepts, i.e. the first
alias that is a prefix of `name`; `rest` is the remainder. -/
def compact_match (aliases : List String) (name : String) : Option String :=
  aliases.findSome? fun al =>
    if pyStartsWith al name then some (String.mk (name.toList.drop al.toList.length)) else none

/-- `handle_option(argv, opt, trigger)` (lines 237-273): set the context,
match the leading token (skipped entirely when a trigger is supplied),
raise `FuzzyMatchSuccess`/`InvalidParam` on a failed match, then parse
`opt.args` when `nargs > 0`, else produce
`OptionResult(_cnt or opt.action.value)`. -/
def handle_option (argv : Argv) (opt : OptSpec) (trigger : Option String) :
    Except (ParseErr × Argv) ((String × OptionResult) × Argv) :=
  let argv0 := { argv with ctx := .copt }
  let step : Except (ParseErr × Argv) (ℕ × Argv) :=
    match trigger with
    | some _ => .ok (0, argv0)
    | none =>
      let nx := argv0.next
      let name := nx.1.toStr
      let argv1 := nx.2.2
      let failed : Except (ParseErr × Argv) (ℕ × Argv) :=
        if argv1.fuzzyMatch ∧ levenshtein_norm name opt.name ≥ argv1.fuzzyThreshold then
          .error (.fuzzyMatchSuccess opt.name name, argv1)
        else .error (.invalidParam ("name_error:" ++ name), argv1)
      if opt.compact then
        match compact_match opt.aliases name with
        | some rest => .ok (0, argv1.rollback (.str rest) true)
        | none => failed
      else if opt.actionType = 2 then
        match count_match opt.aliases name with
        | some c => .ok (c, argv1)
        | none => failed
      else if name ∈ opt.aliases then .ok (0, argv1)
      else failed
  match step with
  | .error e => .error e
  | .ok (cnt, argv2) =>
    if opt.nargs ≠ 0 then
      match analyse_args argv2 opt.args with
      | .error e => .error e
      | .ok (r, a) => .ok ((opt.dest, ⟨.pnone, r⟩), a)
    else
      .ok ((opt.dest, ⟨(if cnt = 0 then opt.actionValue else .num cnt), []⟩), argv2)

/-- Python `int += int` (other shapes are unreachable along the
`handle_action` count path). -/
def pyAdd : PVal → PVal → PVal
  | .num a, .num b => .num (a + b)
  | v, _ => v

/-- Python `list.extend(list)` (other shapes are unreachable along the
`handle_action` append path: the first occurrence always stores a list). -/
def pyExtend : PVal → PVal → PVal
  | .list a, .list b => .list (a ++ b)
  | v, _ => v

/-- Python `source.args[key].append(value)` (the stored value is always a
list: the first occurrence wrapped it). -/
def pyListAppend : PVal → PVal → PVal
  | .list vs, v => .list (vs ++ [v])
  | w, _ => w

/-- One entry of the append merge: `if key in source: append else wrap`. -/
def appendAt (src : PResult) (k : String) (v : PVal) : PResult :=
  if (alookup src k).isSome then aupdate src k (fun old => pyListAppend old v)
  else src ++ [(k, .list [v])]

/-- `for key, value in target.args.items(): ...` of the append branch of
`handle_action` (lines 289-293). -/
def mergeAppendArgs (src : PResult) : PResult → PResult
  | [] => src
  | (k, v) :: rest => mergeAppendArgs (appendAt src k v) rest

/-- `handle_action(param, source, target)` (lines 276-294): store
replaces; count adds values (no args) or replaces (with args); append
extends the value list (no args) or appends each arg value into the
stored lists. -/
def handle_action (param : OptSpec) (source target : OptionResult) : OptionResult :=
  if param.actionType = 0 then target
  else if param.actionType = 2 then
    if param.nargs = 0 then { source with value := pyAdd source.value target.value }
    else target
  else
    if param.nargs = 0 then { source with value := pyExtend source.value target.value }
    else { source with args := mergeAppendArgs source.args target.args }

/-- The per-command option results (`analyser.options_result`). -/
abbrev OptResults := List (String × OptionResult)

/-- The recording step of `analyse_option` (lines 308-314): a first
occurrence is stored (an append action with args wraps each arg value in
a singleton list); a repeated occurrence is merged into the stored
`OptionResult` through `handle_action`. -/
def record_option (results : OptResults) (opt : OptSpec) (optN : String)
    (optV : OptionResult) : OptResults :=
  match alookup results optN with
  | none =>
    let optV1 := if opt.actionType = 1 ∧ ¬optV.args.isEmpty then
        { optV with args := optV.args.map (fun e => (e.1, PVal.list [e.2])) }
      else optV
    results ++ [(optN, optV1)]
  | some prev =>
    aupdate results optN (fun _ => handle_action opt prev optV)

/-- `analyse_option(analyser, argv, opt, trigger)` (lines 297-314): parse
one occurrence with `handle_option`, then record or merge it. -/
def analyse_option (results : OptResults) (argv : Argv) (opt : OptSpec)
    (trigger : Option String) : Except (ParseErr × Argv) (OptResults × Argv) :=
  match handle_option argv opt trigger with
  | .error e => .error e
  | .ok ((optN, optV), argv1) => .ok (record_option results opt optN optV, argv1)

/-! ## Compact-parameter dispatch (`_handlers.py` lines 317-339) -/

/-- A speculative attempt at one compact candidate: `analyse_option` for
an `Option` or `param.process` for a `SubAnalyser`, abstracted as its
effect on the `Argv` (the candidate's internal result bookkeeping is not
observed by the dispatch loop). -/
abbrev Cand := Argv → Except (ParseErr × Argv) Argv

/-- `analyse_compact_params(analyser, argv)` (lines 317-339): snapshot
`argv.data_set()`, attempt the candidate; success returns `True`
committing the state; `InvalidParam` with an `Arg` context re-raises,
otherwise `data_reset` restores the snapshot and the next candidate is
tried; any other exception propagates; an exhausted list returns `None`
(falsy). -/
def analyse_compact_params : List Cand → Argv → Except (ParseErr × Argv) (Bool × Argv)
  | [], argv => .ok (false, argv)
  | cand :: rest, argv =>
    let snap := argv.dataSet
    match cand argv with
    | .ok argv1 => .ok (true, argv1)
    | .error (.invalidParam m, argv1) =>
      if argv1.ctx = .carg then .error (.invalidParam m, argv1)
      else analyse_compact_params rest (argv1.dataReset snap.1 snap.2)
    | .error e => .error e

/-- The candidate arising from an `Option` entry of
`analyser.compact_params` (a fresh result table; the dispatch loop only
observes the `Argv`). -/
def optionCand (opt : OptSpec) : Cand := fun a =>
  match analyse_option [] a opt none with
  | .ok (_, a1) => .ok a1
  | .error e => .error e

/-! ## The dispatch loop restricted to one option (C2)

`analyse_param` (lines 352-390) peeks the next token; a token that is a
key of `compile_params` dispatches the matching option with itself as
trigger (step 2); otherwise the token is rolled back and the compact
candidates are attempted without a trigger (step 3).  For a command whose
only parameter is a single option — the shape of claim C2 — the loop
specialises to the driver below (a count-action option is a compact
candidate, spec §4.4). -/

def dispatch_option (opt : OptSpec) : ℕ → OptResults → Argv →
    Except (ParseErr × Argv) (OptResults × Argv)
  | 0, results, argv => .ok (results, argv)
  | fuel + 1, results, argv =>
    if argv.idx = argv.ndata then .ok (results, argv)
    else
      let nx := argv.next
      let tok := nx.1
      let strq := nx.2.1
      let argv1 := nx.2.2
      if strq ∧ tok.toStr ∈ opt.aliases then
        match analyse_option results argv1 opt (some tok.toStr) with
        | .error e => .error e
        | .ok (r1, a1) => dispatch_option opt fuel r1 { a1 with ctx := .cnone }
      else
        match analyse_option results (argv1.rollback tok false) opt none with
        | .error e => .error e
        | .ok (r1, a1) => dispatch_option opt fuel r1 { a1 with ctx := .cnone }

/-- Build a per-parse `Argv` over the given tokens (single-space
separators, no specials, fuzzy matching off, the option's aliases
registered as param ids). -/
def argvOf (paramIds : List String) (tokens : List DToken) : Argv :=
  { data := tokens, idx := 0, ctx := .cnone, specials := [], disabledBuiltins := [],
    paramIds := paramIds, fuzzyMatch := false, fuzzyThreshold := 6 / 10,
    remainders := [], converter := PVal.toks }

/-- Parse a token list against a single option and return the merged
value recorded under its dest. -/
def mergedOptValue (opt : OptSpec) (tokens : List DToken) : Option PVal :=
  match dispatch_option opt (tokens.length + 1) [] (argvOf opt.aliases tokens) with
  | .ok (r, _) =>
    match alookup r opt.dest with
    | some o => some o.value
    | none => none
  | .error _ => none

/-- The count-action option `-v` of claim C2: alias `-v`, no arguments,
`action = count` (type 2, value 1). -/
def vOpt : OptSpec :=
  { name := "-v", dest := "-v", aliases := ["-v"], actionType := 2,
    actionValue := .num 1, compact := false, nargs := 0, args := .mk [] none [] [] [] }

/-- C2: for the count-action option `-v`, the single token `-vvv` and the
three tokens `-v -v -v` produce the same merged `OptionResult` value, 3. -/
theorem count_vvv_eq_three_v :
    mergedOptValue vOpt [.str "-vvv"] = some (.num 3) ∧
      mergedOptValue vOpt [.str "-v", .str "-v", .str "-v"] = some (.num 3) :=
  ⟨rfl, rfl⟩

/-! ## C1: append-action merging -/

theorem alookup_append {K V : Type} [DecidableEq K] (l m : List (K × V)) (k : K) :
    alookup (l ++ m) k = match alookup l k with
      | some v => some v
      | none => alookup m k := by
  induction l with
  | nil => simp [alookup]
  | cons p rest ih =>
    obtain ⟨k', v⟩ := p
    by_cases h : k = k'
    · simp [alookup, h]
    · simp [alookup, h, ih]

theorem aupdate_lookup_self {K V : Type} [DecidableEq K] (l : List (K × V)) (k : K)
    (f : V → V) (v : V) (h : alookup l k = some v) :
    alookup (aupdate l k f) k = some (f v) := by
  induction l with
  | nil => simp [alookup] at h
  | cons p rest ih =>
    obtain ⟨k', w⟩ := p
    by_cases hk : k = k'
    · simp [alookup, hk] at h
      simp [aupdate, alookup, hk, h]
    · simp [alookup, hk] at h
      simp [aupdate, alookup, hk, ih h]

theorem aupdate_lookup_ne {K V : Type} [DecidableEq K] (l : List (K × V)) (k k' : K)
    (f : V → V) (h : k ≠ k') : alookup (aupdate l k' f) k = alookup l k := by
  induction l with
  | nil => simp [aupdate]
  | cons p rest ih =>
    obtain ⟨k'', w⟩ := p
    by_cases hk : k' = k''
    · subst hk
      simp [aupdate, alookup, h]
    · by_cases hk2 : k = k''
      · simp [aupdate, alookup, hk, hk2]
      · simp [aupdate, alookup, hk, hk2, ih]

theorem wrap_lookup (l : PResult) (k : String) :
    alookup (l.map (fun e => (e.1, PVal.list [e.2]))) k =
      (alookup l k).map (fun v => PVal.list [v]) := by
  induction l with
  | nil => simp [alookup]
  | cons p rest ih =>
    obtain ⟨k', v⟩ := p
    by_cases h : k = k'
    · simp [alookup, h]
    · simp [alookup, h, ih]

theorem appendAt_lookup_ne (src : PResult) (k k' : String) (v : PVal) (h : k ≠ k') :
    alookup (appendAt src k' v) k = alookup src k := by
  rw [appendAt]
  split
  · exact aupdate_lookup_ne src k k' _ h
  · rw [alookup_append]
    cases hl : alookup src k with
    | some w => rfl
    | none => simp [alookup, h]

theorem appendAt_lookup_self (src : PResult) (k : String) (v : PVal) (ws : List PVal)
    (h : alookup src k = some (.list ws)) :
    alookup (appendAt src k v) k = some (.list (ws ++ [v])) := by
  rw [appendAt, if_pos (by rw [h]; rfl)]
  rw [aupdate_lookup_self src k _ _ h]
  rfl

theorem mergeAppendArgs_lookup_notmem (t : PResult) :
    ∀ (src : PResult) (k : String), k ∉ t.map Prod.fst →
      alookup (mergeAppendArgs src t) k = alookup src k := by
  induction t with
  | nil => intro src k _; rfl
  | cons p rest ih =>
    obtain ⟨k', v⟩ := p
    intro src k hk
    simp only [List.map_cons, List.mem_cons] at hk
    push_neg at hk
    rw [mergeAppendArgs, ih _ k hk.2, appendAt_lookup_ne src k k' v hk.1]

theorem mergeAppendArgs_lookup (t : PResult) :
    ∀ (src : PResult) (k : String) (ws : List PVal) (v : PVal),
      (t.map Prod.fst).Nodup → alookup t k = some v →
      alookup src k = some (.list ws) →
      alookup (mergeAppendArgs src t) k = some (.list (ws ++ [v])) := by
  induction t with
  | nil => intro src k ws v _ h; simp [alookup] at h
  | cons p rest ih =>
    obtain ⟨k', w⟩ := p
    intro src k ws v hnd hl hs
    have hnd' := hnd
    simp only [List.map_cons, List.nodup_cons] at hnd'
    by_cases hk : k = k'
    · subst hk
      simp only [alookup, if_pos rfl] at hl
      injection hl with hw
      rw [mergeAppendArgs, mergeAppendArgs_lookup_notmem rest _ k hnd'.1, ← hw]
      exact appendAt_lookup_self src k w ws hs
    · simp only [alookup, if_neg hk] at hl
      rw [mergeAppendArgs]
      exact ih _ k ws v hnd'.2 hl (by rw [appendAt_lookup_ne src k k' w hk, hs])

theorem alookup_ne_nil {K V : Type} [DecidableEq K] (l : List (K × V)) (k : K) (v : V)
    (h : alookup l k = some v) : ¬l.isEmpty := by
  cases l with
  | nil => simp [alookup] at h
  | cons p rest => simp

theorem handle_action_append_args (opt : OptSpec) (source target : OptionResult)
    (hact : opt.actionType = 1) (hnargs : opt.nargs ≠ 0) :
    handle_action opt source target =
      { source with args := mergeAppendArgs source.args target.args } := by
  rw [handle_action, if_neg (by omega), if_neg (by omega), if_neg (by omega)]

theorem record_option_fold_singleton (opt : OptSpec) (k : String)
    (hact : opt.actionType = 1) (hnargs : opt.nargs ≠ 0) :
    ∀ (rest : List OptionResult) (res : OptionResult) (ws : List PVal) (vsr : List PVal),
      rest.map (fun o => alookup o.args k) = vsr.map some →
      (∀ o ∈ rest, (o.args.map Prod.fst).Nodup) →
      alookup res.args k = some (.list ws) →
      ∃ res', rest.foldl (fun rs o => record_option rs opt opt.dest o) [(opt.dest, res)] =
          [(opt.dest, res')] ∧ alookup res'.args k = some (.list (ws ++ vsr)) := by
  intro rest
  induction rest with
  | nil =>
    intro res ws vsr hmap _ hres
    cases vsr with
    | nil => exact ⟨res, rfl, by simpa using hres⟩
    | cons v vsr => simp at hmap
  | cons o rest ih =>
    intro res ws vsr hmap hnd hres
    cases vsr with
    | nil => simp at hmap
    | cons v vsr =>
      simp only [List.map_cons, List.cons.injEq] at hmap
      obtain ⟨hov, hmap'⟩ := hmap
      have hstep : record_option [(opt.dest, res)] opt opt.dest o =
          [(opt.dest, { res with args := mergeAppendArgs res.args o.args })] := by
        simp [record_option, alookup, aupdate,
          handle_action_append_args opt res o hact hnargs]
      rw [List.foldl_cons, hstep]
      have hargs : alookup (mergeAppendArgs res.args o.args) k = some (.list (ws ++ [v])) :=
        mergeAppendArgs_lookup o.args res.args k ws v
          (hnd o (List.mem_cons_self o rest)) hov hres
      obtain ⟨res', hfold, hlook⟩ := ih { res with args := mergeAppendArgs res.args o.args }
        (ws ++ [v]) vsr hmap' (fun o' ho' => hnd o' (List.mem_cons_of_mem o ho')) hargs
      exact ⟨res', hfold, by simpa [List.append_assoc] using hlook⟩

/-- C1: for an option with an `append` action (and arguments) seen `N`
times, with each occurrence binding the argument key `k`, the merged
`OptionResult` maps `k` to the list of all `N` bound values in arrival
order — no value of an earlier occurrence is dropped. -/
theorem append_option_merge (opt : OptSpec) (occs : List OptionResult)
    (k : String) (vs : List PVal)
    (hact : opt.actionType = 1) (hnargs : opt.nargs ≠ 0) (hne : occs ≠ [])
    (hvs : occs.map (fun o => alookup o.args k) = vs.map some)
    (hnodup : ∀ o ∈ occs, (o.args.map Prod.fst).Nodup) :
    ((alookup (occs.foldl (fun rs o => record_option rs opt opt.dest o) []) opt.dest).map
        (fun res => alookup res.args k)) = some (some (.list vs)) ∧
      vs.length = occs.length := by
  cases occs with
  | nil => exact absurd rfl hne
  | cons o rest =>
    cases vs with
    | nil => simp at hvs
    | cons v vsr =>
      simp only [List.map_cons, List.cons.injEq] at hvs
      obtain ⟨hov, hmap'⟩ := hvs
      have hfirst : record_option [] opt opt.dest o =
          [(opt.dest, { o with args := o.args.map (fun e => (e.1, PVal.list [e.2])) })] := by
        rw [record_option]
        simp only [alookup]
        rw [if_pos ⟨hact, alookup_ne_nil o.args k v hov⟩]
        rfl
      have hwrapped : alookup (o.args.map (fun e => (e.1, PVal.list [e.2]))) k =
          some (.list [v]) := by
        rw [wrap_lookup, hov]
        rfl
      obtain ⟨res', hfold, hlook⟩ := record_option_fold_singleton opt k hact hnargs rest
        { o with args := o.args.map (fun e => (e.1, PVal.list [e.2])) } [v] vsr hmap'
        (fun o' ho' => hnodup o' (List.mem_cons_of_mem o ho')) hwrapped
      constructor
      · have hlook' : alookup res'.args k = some (.list (v :: vsr)) := by
          simpa using hlook
        rw [List.foldl_cons, hfirst, hfold]
        simp [alookup, hlook']
      · have := congrArg List.length hmap'
        simp only [List.length_map] at this
        simp [this]

/-- An append-action option with one argument, for the C1 witness. -/
def appendOpt : OptSpec :=
  { name := "--foo", dest := "foo", aliases := ["--foo"], actionType := 1,
    actionValue := .pnone, compact := false, nargs := 1, args := .mk [] none [] [] [] }

/-- A first parsed occurrence of `appendOpt`. -/
def occA : OptionResult := ⟨.pnone, [("x", .str "a")]⟩

/-- A second parsed occurrence of `appendOpt`. -/
def occB : OptionResult := ⟨.pnone, [("x", .str "b")]⟩

/-- Witness for C1 at two concrete occurrences. -/
theorem append_option_merge_witness :
    ((alookup ([occA, occB].foldl (fun rs o => record_option rs appendOpt appendOpt.dest o) [])
        appendOpt.dest).map (fun res => alookup res.args "x")) =
      some (some (.list [.str "a", .str "b"])) ∧
      ([PVal.str "a", PVal.str "b"].length = [occA, occB].length) := by
  refine append_option_merge appendOpt [occA, occB] "x" [.str "a", .str "b"] rfl
    (by decide) (by simp) rfl ?_
  intro o ho
  rcases List.mem_cons.mp ho with h | h
  · subst h; decide
  · rcases List.mem_cons.mp h with h2 | h2
    · subst h2; decide
    · simp at h2

/-! ## C3: speculative compact dispatch -/

/-- A pattern that rejects every token. -/
def rejectPat : Pat := { palias := none, kind := .kCustom, validate := fun _ => none }

/-- A pattern that accepts every token unchanged. -/
def acceptPat : Pat := { palias := none, kind := .kCustom, validate := fun t => some (.tok t) }

/-- A compact option whose single mandatory argument rejects its token:
its speculative attempt raises `InvalidParam` while `argv.context` is the
`Arg` being matched. -/
def badOpt : OptSpec :=
  { name := "-f", dest := "-f", aliases := ["-f"], actionType := 0,
    actionValue := .pnone, compact := true, nargs := 1,
    args := .mk [{ name := "n", value := rejectPat, default := none, optional := false }]
      none [] [] [] }

/-- A compact option with no arguments that accepts the same head token. -/
def okOpt : OptSpec :=
  { name := "-f", dest := "-fo", aliases := ["-f"], actionType := 0,
    actionValue := .num 7, compact := true, nargs := 0, args := .mk [] none [] [] [] }

/-- An option whose alias does not match the head token: its attempt
raises `InvalidParam` with the context still on the `Option`. -/
def missOpt : OptSpec :=
  { name := "-z", dest := "-z", aliases := ["-z"], actionType := 0,
    actionValue := .pnone, compact := false, nargs := 0, args := .mk [] none [] [] [] }

/-- The concrete `Argv` for the C3 scenarios: tokens `-f x`. -/
def cArgv : Argv := argvOf ["-f"] [.str "-f", .str "x"]

def exceptErrIdx {α : Type} : Except (ParseErr × Argv) α → Option ℕ
  | .error (_, a) => some a.idx
  | .ok _ => none

def exceptIsInvalid {α : Type} : Except (ParseErr × Argv) α → Bool
  | .error (.invalidParam _, _) => true
  | _ => false

/-- C3 counterexample: the candidate `badOpt` raises `InvalidParam` from
inside its own `Args` (`argv.context` is an `Arg`), and
`analyse_compact_params` re-raises it instead of restoring the snapshot
and attempting the next candidate — even though the next candidate
(`okOpt`) would succeed on the snapshot.  The propagated state has
`current_index = 1`, not the snapshot value `0`. -/
theorem compact_dispatch_arg_context_raises :
    exceptIsInvalid (analyse_compact_params [optionCand badOpt, optionCand okOpt] cArgv) = true ∧
      exceptErrIdx (analyse_compact_params [optionCand badOpt, optionCand okOpt] cArgv) = some 1 ∧
      cArgv.idx = 0 ∧
      (optionCand okOpt cArgv).isOk = true :=
  ⟨rfl, rfl, rfl, rfl⟩

/-- C3 (amended): when every earlier candidate fails with `InvalidParam`
raised outside an `Arg` context (mutating only the token view, the cursor
and the context), the snapshot is restored before each next attempt, and
the first succeeding candidate receives the snapshot state and commits
its own resulting state unchanged. -/
theorem compact_dispatch_restore_and_commit (pres : List Cand) (c : Cand)
    (rest : List Cand) (argv : Argv)
    (hfail : ∀ cand ∈ pres, ∀ x : Ctx, ∃ m a',
      cand { argv with ctx := x } = .error (.invalidParam m, a') ∧ a'.ctx ≠ .carg ∧
        a'.dataReset argv.data argv.idx = { argv with ctx := a'.ctx })
    (hsucc : ∀ x : Ctx, ∃ s, c { argv with ctx := x } = .ok s) :
    ∃ x s, c { argv with ctx := x } = .ok s ∧
      analyse_compact_params (pres ++ c :: rest) argv = .ok (true, s) := by
  induction pres generalizing argv with
  | nil =>
    obtain ⟨s, hs⟩ := hsucc argv.ctx
    have hargv : ({ argv with ctx := argv.ctx } : Argv) = argv := rfl
    refine ⟨argv.ctx, s, hs, ?_⟩
    rw [hargv] at hs
    simp only [List.nil_append, analyse_compact_params, hs]
  | cons p pres ih =>
    obtain ⟨m, a', hp, hctx, hreset⟩ := hfail p (List.mem_cons_self p pres) argv.ctx
    have hargv : ({ argv with ctx := argv.ctx } : Argv) = argv := rfl
    rw [hargv] at hp
    have hstep : analyse_compact_params ((p :: pres) ++ c :: rest) argv =
        analyse_compact_params (pres ++ c :: rest) (a'.dataReset argv.data argv.idx) := by
      simp only [List.cons_append, analyse_compact_params, hp, if_neg hctx]
      rfl
    rw [hstep, hreset]
    have hfail' : ∀ cand ∈ pres, ∀ x : Ctx, ∃ m2 a2,
        cand { ({ argv with ctx := a'.ctx } : Argv) with ctx := x } = .error (.invalidParam m2, a2) ∧
          a2.ctx ≠ .carg ∧
          a2.dataReset ({ argv with ctx := a'.ctx } : Argv).data
              ({ argv with ctx := a'.ctx } : Argv).idx =
            { ({ argv with ctx := a'.ctx } : Argv) with ctx := a2.ctx } :=
      fun cand hc x => hfail cand (List.mem_cons_of_mem p hc) x
    have hsucc' : ∀ x : Ctx, ∃ s, c { ({ argv with ctx := a'.ctx } : Argv) with ctx := x } = .ok s :=
      fun x => hsucc x
    obtain ⟨x, s, hcs, hres⟩ := ih { argv with ctx := a'.ctx } hfail' hsucc'
    exact ⟨x, s, hcs, hres⟩

/-- Witness for C3 (amended) at concrete candidates. -/
theorem compact_dispatch_restore_and_commit_witness :
    ∃ x s, optionCand okOpt { cArgv with ctx := x } = .ok s ∧
      analyse_compact_params ([optionCand missOpt] ++ optionCand okOpt :: []) cArgv =
        .ok (true, s) := by
  refine compact_dispatch_restore_and_commit [optionCand missOpt] (optionCand okOpt) [] cArgv
    ?_ ?_
  · intro cand hc x
    have hcand : cand = optionCand missOpt := by
      rcases List.mem_cons.mp hc with h | h
      · exact h
      · simp at h
    subst hcand
    cases x <;> exact ⟨_, _, rfl, by decide, rfl⟩
  · intro x
    cases x <;> exact ⟨_, rfl⟩

/-! ## C4: variadic-positional termination -/

def exceptResLookup (k : String) : Except (ParseErr × Argv) (PResult × Argv) → Option PVal
  | .ok (r, _) => alookup r k
  | .error _ => none

def exceptIsMissing {α : Type} : Except (ParseErr × Argv) α → Bool
  | .error (.argumentMissing _, _) => true
  | _ => false

/-- A `MultiVar` with flag `+` for the C4 counterexample. -/
def plusVar : MVar := { base := acceptPat, flag := "+", length := -1 }

/-- The matching arg slot, carrying a declared (iterable) default. -/
def plusArg : ArgV := { name := "xs", default := .viter [.str "d"] }

/-- An `Argv` whose next token is a registered param id, so the
collection loop of `step_varpos` collects nothing. -/
def vArgv : Argv := argvOf ["-f"] [.str "-f"]

/-- C4 counterexample: a `+`-flagged variadic-positional that collects
nothing does *not* raise `ArgumentMissing` when the arg declares a
default — the source checks the default before the flag and binds the
default. -/
theorem step_varpos_default_overrides_plus :
    exceptResLookup "xs" (step_varpos vArgv (.mk [] none [] [] []) (plusVar, plusArg) []) =
      some (.tup [.str "d"]) ∧
      exceptIsMissing (step_varpos vArgv (.mk [] none [] [] []) (plusVar, plusArg) []) = false ∧
      plusVar.flag = "+" :=
  ⟨rfl, rfl, rfl⟩

/-- C4 (amended): when the collection loop of `step_varpos` ends with no
collected values, a declared default is bound first (as a tuple when
iterable, as `()` otherwise); with no default, flag `*` binds `()` and
any other flag (i.e. `+`) raises `ArgumentMissing`. -/
theorem step_varpos_empty_cases (argv : Argv) (spec : ArgsSpec) (mv : MVar)
    (arg : ArgV) (result : PResult) (argv1 : Argv)
    (hloop : step_varpos_loop spec mv (argv.data.length + 1) { argv with ctx := .carg } [] 0 =
      .ok ([], argv1)) :
    (∀ vs, arg.default = .viter vs →
      step_varpos argv spec (mv, arg) result = .ok (rinsert result arg.name (.tup vs), argv1)) ∧
    (∀ v, arg.default = .vnoniter v →
      step_varpos argv spec (mv, arg) result = .ok (rinsert result arg.name (.tup []), argv1)) ∧
    (arg.default = .vnone → mv.flag = "*" →
      step_varpos argv spec (mv, arg) result = .ok (rinsert result arg.name (.tup []), argv1)) ∧
    (arg.default = .vnone → mv.flag ≠ "*" →
      step_varpos argv spec (mv, arg) result =
        .error (.argumentMissing ("missing:" ++ arg.name), argv1)) := by
  have hunfold : step_varpos argv spec (mv, arg) result =
      match ([] : List PVal), arg.default with
      | [], .viter vs => .ok (rinsert result arg.name (.tup vs), argv1)
      | [], .vnoniter _ => .ok (rinsert result arg.name (.tup []), argv1)
      | [], .vnone =>
        if mv.flag = "*" then .ok (rinsert result arg.name (.tup []), argv1)
        else .error (.argumentMissing ("missing:" ++ arg.name), argv1)
      | res, _ => .ok (rinsert result arg.name (.tup res), argv1) := by
    rw [step_varpos]
    simp only [hloop]
  refine ⟨?_, ?_, ?_, ?_⟩
  · intro vs hd
    rw [hunfold, hd]
  · intro v hd
    rw [hunfold, hd]
  · intro hd hf
    rw [hunfold, hd]
    simp only [if_pos hf]
  · intro hd hf
    rw [hunfold, hd]
    simp only [if_neg hf]

/-- Witness for C4 (amended): an empty stream, no default, flag `*`. -/
theorem step_varpos_empty_cases_witness :
    step_varpos (argvOf [] []) (.mk [] none [] [] [])
        ({ base := acceptPat, flag := "*", length := -1 }, { name := "ys", default := .vnone })
        [] =
      .ok (rinsert [] "ys" (.tup []), { (argvOf [] []) with ctx := .carg }) := by
  have h := step_varpos_empty_cases (argvOf [] []) (.mk [] none [] [] [])
    { base := acceptPat, flag := "*", length := -1 } { name := "ys", default := .vnone } []
    { (argvOf [] []) with ctx := .carg } rfl
  exact h.2.2.1 rfl rfl

/-! ## C7: the wildcard arg absorbs the rest and terminates `analyse_args` -/

/-- C7: when the normal-args loop reaches an arg whose value pattern has
alias `"*"` (here: the head of the normal list, i.e. the loop state on
arrival) and the consumed token is not a special, not empty, and not an
optional-arg param-id skip, then `analyse_args` rolls the token back,
binds `converter(release())` — all remaining tokens — to that arg, sets
`current_index = ndata`, and returns immediately: the result and final
state are independent of every later slot (unpack, variadic positional,
keyword-only, variadic keyword) and of the remaining normal args. -/
theorem analyse_args_wildcard (argv argv1 argv2 : Argv) (t : DToken) (strq : Bool)
    (wcArg : ArgN) (restN : List ArgN) (unpack : Option (ArgU × ArgsSpec))
    (vpos : List (MVar × ArgV)) (kwonly : List ArgK) (vkw : List (MKVar × ArgVK))
    (hnx : ({ argv with ctx := Ctx.carg } : Argv).next = (t, strq, argv1))
    (hrb : argv1.rollback t false = argv2)
    (hwc : wcArg.value.palias = some "*")
    (hspec : specialHit argv1 t strq = none)
    (hpid : ¬(strq = true ∧ t.toStr ∈ argv1.paramIds ∧ wcArg.optional = true))
    (hne : t.isEmpty = false) :
    analyse_args argv (.mk (wcArg :: restN) unpack vpos kwonly vkw) =
      .ok ([(wcArg.name, argv2.converter (argv2.data.drop argv2.idx))],
        { argv2 with idx := argv2.data.length }) := by
  have hnormal : analyse_args_normal argv (wcArg :: restN) [] =
      .ok (.wildcard [(wcArg.name, argv2.converter (argv2.data.drop argv2.idx))]
        { argv2 with idx := argv2.data.length }) := by
    rw [analyse_args_normal, hnx]
    simp only [hspec]
    rw [if_neg hpid]
    rw [if_neg (by simp [hne])]
    rw [if_pos hwc, hrb]
    rfl
  rw [analyse_args, analyse_args_fuel, hnormal]

/-- The `AllParam` wildcard pattern (alias `"*"`). -/
def wildcardPat : Pat :=
  { palias := some "*", kind := .kCustom, validate := fun t => some (.tok t) }

/-- The wildcard arg for the C7 witness. -/
def wcA : ArgN :=
  { name := "rest", value := wildcardPat, default := none, optional := false }

/-- A non-optional keyword-only arg that would raise if it were ever
processed (it never is: the wildcard returns first). -/
def kReq : ArgK :=
  { name := "k", sep := '=', base := rejectPat, kwbool := false,
    default := none, optional := false }

/-- The C7 witness stream: two remaining tokens. -/
def wArgv : Argv := argvOf [] [.str "a", .str "b"]

/-- Witness for C7: the wildcard binds both remaining tokens, the cursor
lands at `ndata`, and the `+`-variadic and required keyword-only slots
after it — which would fail on an empty stream — are never processed. -/
theorem analyse_args_wildcard_witness :
    analyse_args wArgv (.mk [wcA] none [(plusVar, { name := "zs", default := .vnone })]
        [kReq] []) =
      .ok ([("rest", PVal.toks [.str "a", .str "b"])],
        { wArgv with ctx := Ctx.carg, idx := 2 }) := by
  have h := analyse_args_wildcard wArgv
    { wArgv with ctx := Ctx.carg, idx := 1 } { wArgv with ctx := Ctx.carg, idx := 0 }
    (.str "a") true wcA [] none [(plusVar, { name := "zs", default := .vnone })] [kReq] []
    rfl rfl (by rfl) rfl (by decide) rfl
  exact h

/-! ## C6: count-action token matching -/

/-- C6 counterexample: for alias `-v`, the token `-vx` — which is not
`-` followed by repetitions of the alias (the repetitions of lengths up
to its own are `-v` and `-vv`) — *does* match the count branch of
`handle_option`, with recorded value 2: the source only checks the
prefix and the dash-stripped length ratio, not that the tail repeats the
alias. -/
theorem count_match_not_repetition :
    count_match ["-v"] "-vx" = some 2 ∧ ("-vx" : String) ≠ "-vv" ∧ ("-vx" : String) ≠ "-v" :=
  ⟨rfl, by decide, by decide⟩

/-- `body` concatenated `k` times. -/
def repeatList (b : List Char) : ℕ → List Char
  | 0 => []
  | k + 1 => b ++ repeatList b k

theorem repeatList_length (b : List Char) : ∀ k, (repeatList b k).length = k * b.length := by
  intro k
  induction k with
  | zero => simp [repeatList]
  | succ k ih => simp [repeatList, ih, Nat.succ_mul, Nat.add_comm]

theorem repeatList_cons (c : Char) (b' : List Char) (k : ℕ) (hk : 1 ≤ k) :
    ∃ rest, repeatList (c :: b') k = c :: rest := by
  cases k with
  | zero => omega
  | succ k => exact ⟨b' ++ repeatList (c :: b') k, rfl⟩

/-- C6 (amended): the count branch matches a leading token exactly when
the token starts with an alias and the dash-stripped lengths divide; in
particular, for the token `-` followed by `k ≥ 1` copies of the alias
body (alias `-body`, body not starting with a dash), `handle_option`
matches and records exactly the repetition count `k` — but the matching
is not limited to such repetition tokens (see the counterexample). -/
theorem handle_option_count_value (argv argv1 : Argv) (opt : OptSpec)
    (c : Char) (body' : List Char) (k : ℕ) (strq : Bool)
    (hk : 1 ≤ k) (hc : c ≠ '-')
    (halias : opt.aliases = [String.mk ('-' :: c :: body')])
    (hact : opt.actionType = 2) (hcompact : opt.compact = false) (hnargs : opt.nargs = 0)
    (hnext : ({ argv with ctx := Ctx.copt } : Argv).next =
      (.str (String.mk ('-' :: repeatList (c :: body') k)), strq, argv1)) :
    handle_option argv opt none = .ok ((opt.dest, ⟨.num k, []⟩), argv1) := by
  obtain ⟨rest, hrep⟩ := repeatList_cons c body' k hk
  have hmatch : count_match opt.aliases (String.mk ('-' :: repeatList (c :: body') k)) =
      some k := by
    rw [halias, count_match]
    have hpre : pyStartsWith (String.mk ('-' :: c :: body'))
        (String.mk ('-' :: repeatList (c :: body') k)) = true := by
      rw [pyStartsWith]
      apply List.isPrefixOf_iff_prefix.mpr
      show '-' :: c :: body' <+: '-' :: repeatList (c :: body') k
      cases k with
      | zero => omega
      | succ k =>
        show '-' :: c :: body' <+: '-' :: ((c :: body') ++ repeatList (c :: body') k)
        exact (List.prefix_cons_inj '-').mpr (List.prefix_append _ _)
    have hstripName : stripDashes (String.mk ('-' :: repeatList (c :: body') k)) =
        String.mk (repeatList (c :: body') k) := by
      rw [stripDashes]
      show String.mk (List.dropWhile _ ('-' :: repeatList (c :: body') k)) = _
      rw [hrep]
      simp [List.dropWhile, hc]
    have hstripAl : stripDashes (String.mk ('-' :: c :: body')) = String.mk (c :: body') := by
      rw [stripDashes]
      show String.mk (List.dropWhile _ ('-' :: c :: body')) = _
      simp [List.dropWhile, hc]
    have hlen : (String.mk (repeatList (c :: body') k)).toList.length = k * (c :: body').length :=
      repeatList_length (c :: body') k
    simp only [List.findSome?]
    rw [hpre, hstripName, hstripAl]
    have hbl : (String.mk (c :: body')).toList.length = (c :: body').length := rfl
    rw [if_pos ?side]
    case side =>
      refine ⟨rfl, ?_, ?_⟩
      · simp [hbl]
      · rw [hlen, hbl]
        simp [Nat.mul_mod_left]
    · rw [hlen, hbl]
      rw [Nat.mul_div_cancel]
      simp
  rw [handle_option]
  simp only [hnext, DToken.toStr, hcompact, hact, hnargs, hmatch]
  simp only [Bool.false_eq_true, if_false]
  norm_num
  intro h0
  exact absurd h0 (by omega)

/-- Witness for C6 (amended) at alias `-v`, token `-vvv`. -/
theorem handle_option_count_value_witness :
    handle_option (argvOf [] [.str "-vvv"]) vOpt none =
      .ok (("-v", ⟨.num 3, []⟩), { (argvOf [] [.str "-vvv"]) with ctx := Ctx.copt, idx := 1 }) := by
  have h := handle_option_count_value (argvOf [] [.str "-vvv"])
    { (argvOf [] [.str "-vvv"]) with ctx := Ctx.copt, idx := 1 } vOpt 'v' [] 3 true
    (by omega) (by decide) rfl rfl rfl rfl rfl
  exact h

/-! ## C5: header matching failure and fuzzy suggestion
(`analyse_header` / `_handle_fuzzy`, `_handlers.py` lines 393-459)

The header's `content` is compiled in `_header.py` into a literal set, a
compiled regex, a value pattern, or `Double` pair matchers; the `Double`
class is absent from the source tree, so the pair variants are not
modelled (the claim is about the string-head failure path, which they do
not affect).  Compiled regexes are abstracted as their match functions. -/

/-- Modelled from the spec: `_util.levenshtein` is absent from src; the
spec's glossary ("Levenshtein-normalized similarity") and the in-repo
parallel implementation `util.py levenshtein_norm` fix it as the
normalised similarity.  (The source name `levenshtein` collides with
Mathlib's edit distance, hence the suffix.) -/
def levenshtein_sim (a b : String) : ℚ := levenshtein_norm a b

/-- A prefix of a header origin: a string, a `(non-str, str)` pair, or an
opaque object (spec §3 `Header.origin`). -/
inductive HPrefix where
  | pstr (s : String)
  | ppair (a b : String)
  | pobj (r : String)

/-- The compiled `Header.content` variants used by `analyse_header`:
literal set, compiled regex (abstracted as its `fullmatch`, returning the
group dict), or value pattern. -/
inductive HContent where
  | hset (ss : List String)
  | hregex (fullm : String → Option (List (String × String)))
  | hpattern (p : Pat)

/-- `Header` restricted to the fields `analyse_header` and
`_handle_fuzzy` read.  `compactRegex` abstracts
`header.compact_pattern.match` (returning `mat[0]` and the group dict)
for set/regex contents, `compactPat` the compact `BasePattern` for
pattern contents. -/
structure Header0 where
  originCmd : String
  pfxs : List HPrefix
  content : HContent
  compact : Bool
  compactRegex : String → Option (String × List (String × String))
  compactPat : Pat

/-- `HeadResult(origin, result, matched, groups)` (the `fixes` mapping is
not observed by the claims). -/
structure HeadResult0 where
  origin : PVal
  result : PVal
  matched : Bool
  groups : List (String × String)

/-- Python `str()` of a parsed value (only its length is ever used, for
the compact split). -/
def pvalStr : PVal → String
  | .str s => s
  | .tok t => t.toStr
  | .num n => toString n
  | .pnone => "None"
  | .tup _ => "(...)"
  | .list _ => "[...]"
  | .toks _ => "[...]"
  | .pdict _ => "\x7b...\x7d"

/-- The header texts `_handle_fuzzy` compares against (lines 445-456):
the command itself without prefixes, else each prefix combined with the
command. -/
def headersText (h : Header0) : List String :=
  if h.pfxs.isEmpty then [h.originCmd]
  else h.pfxs.map (fun p =>
    match p with
    | .pstr s => s ++ h.originCmd
    | .ppair a b => a ++ " " ++ b ++ h.originCmd
    | .pobj r => r ++ " " ++ h.originCmd)

/-- `_handle_fuzzy(header, source, threshold)` (lines 444-459): raise
`FuzzyMatchSuccess` — formatted with `source=ht` (the header text) and
`target=source` (the input) — for the first header text whose similarity
to the input reaches the threshold; return `none` when all are below. -/
def handle_fuzzy (h : Header0) (source : String) (threshold : ℚ) : Option ParseErr :=
  (headersText h).findSome? (fun ht =>
    if threshold ≤ levenshtein_sim source ht then some (.fuzzyMatchSuccess ht source) else none)

/-- The head-token matching step of `analyse_header` (lines 403-420): the
string-only set/regex tests with their compact variants, then the
pattern test (on the raw token) with its compact variant.  `none` means
no variant matched. -/
def header_content_step (h : Header0) (t : DToken) (strq : Bool) (argv1 : Argv) :
    Option (HeadResult0 × Argv) :=
  let s := t.toStr
  let tryCompact : Option (HeadResult0 × Argv) :=
    if h.compact then
      match h.compactRegex s with
      | some (m0, gd) =>
        some (⟨.str m0, .str m0, true, gd⟩,
          argv1.rollback (.str (String.mk (s.toList.drop m0.toList.length))) true)
      | none => none
    else none
  let strPart : Option (HeadResult0 × Argv) :=
    if strq then
      match h.content with
      | .hset ss => if s ∈ ss then some (⟨.str s, .str s, true, []⟩, argv1) else tryCompact
      | .hregex f =>
        match f s with
        | some gd => some (⟨.str s, .str s, true, gd⟩, argv1)
        | none => tryCompact
      | .hpattern _ => none
    else none
  match strPart with
  | some r => some r
  | none =>
    match h.content with
    | .hpattern p =>
      match p.validate t with
      | some v => some (⟨.tok t, v, true, []⟩, argv1)
      | none =>
        if h.compact then
          match h.compactPat.validate t with
          | some v =>
            some (⟨v, v, true, []⟩,
              if strq then
                argv1.rollback (.str (String.mk (s.toList.drop (pvalStr v).toList.length))) true
              else argv1)
          | none => none
        else none
    | _ => none

/-- `analyse_header(header, argv)` (lines 393-441): try the content
variants on the first token; on failure consume a second token (the
`Double` variants are absent from src and not modelled), then — for a
string head — roll the second token back and raise `FuzzyMatchSuccess`
via `_handle_fuzzy` when fuzzy matching is on and a header is close
enough, else `InvalidParam`. -/
def analyse_header (h : Header0) (argv : Argv) :
    Except (ParseErr × Argv) (HeadResult0 × Argv) :=
  let nx := argv.next
  let head := nx.1
  let strq := nx.2.1
  let argv1 := nx.2.2
  match header_content_step h head strq argv1 with
  | some (res, a) => .ok (res, a)
  | none =>
    let nx2 := argv1.next
    let may_cmd := nx2.1
    let mstr := nx2.2.1
    let argv2 := nx2.2.2
    if strq then
      let argv3 := argv2.rollback may_cmd false
      if argv3.fuzzyMatch then
        match handle_fuzzy h head.toStr argv3.fuzzyThreshold with
        | some e => .error (e, argv3)
        | none => .error (.invalidParam ("header:" ++ head.toStr), argv3)
      else .error (.invalidParam ("header:" ++ head.toStr), argv3)
    else if mstr ∧ ¬may_cmd.isEmpty then
      if argv2.fuzzyMatch then
        match handle_fuzzy h (head.toStr ++ " " ++ may_cmd.toStr) argv2.fuzzyThreshold with
        | some e => .error (e, argv2)
        | none => .error (.invalidParam ("header:" ++ may_cmd.toStr), argv2)
      else .error (.invalidParam ("header:" ++ may_cmd.toStr), argv2)
    else .error (.invalidParam ("header:" ++ head.toStr), argv2.rollback may_cmd false)

/-- No content variant (nor a compact variant) matches the head token. -/
def contentFails (h : Header0) (t : DToken) : Prop :=
  (match h.content with
   | .hset ss => t.toStr ∉ ss
   | .hregex f => f t.toStr = none
   | .hpattern p => p.validate t = none) ∧
  (h.compact = true → h.compactRegex t.toStr = none ∧ h.compactPat.validate t = none)

theorem header_content_step_none (h : Header0) (t : DToken) (strq : Bool) (argv1 : Argv)
    (hf : contentFails h t) : header_content_step h t strq argv1 = none := by
  obtain ⟨h1, h2⟩ := hf
  cases hcont : h.content with
  | hset ss =>
    rw [hcont] at h1
    cases hcmp : h.compact with
    | false => cases strq <;> simp [header_content_step, hcont, hcmp, h1]
    | true => cases strq <;> simp [header_content_step, hcont, hcmp, h1, (h2 hcmp).1]
  | hregex f =>
    rw [hcont] at h1
    cases hcmp : h.compact with
    | false => cases strq <;> simp [header_content_step, hcont, hcmp, h1]
    | true => cases strq <;> simp [header_content_step, hcont, hcmp, h1, (h2 hcmp).1]
  | hpattern p =>
    have h1' : p.validate t = none := by rw [hcont] at h1; exact h1
    cases hcmp : h.compact with
    | false => cases strq <;> simp [header_content_step, hcont, hcmp, h1']
    | true => cases strq <;> simp [header_content_step, hcont, hcmp, h1', (h2 hcmp).2]

/-- The first header text whose similarity to `s` reaches the threshold. -/
def firstAbove (h : Header0) (s : String) (threshold : ℚ) : Option String :=
  (headersText h).findSome? (fun ht => if threshold ≤ levenshtein_sim s ht then some ht else none)

theorem findSome?_if_map (l : List String) (p : String → Prop) [DecidablePred p]
    (f : String → ParseErr) :
    (l.findSome? fun x => if p x then some (f x) else none) =
      (l.findSome? fun x => if p x then some x else none).map f := by
  induction l with
  | nil => rfl
  | cons a rest ih =>
    by_cases hp : p a
    · simp [List.findSome?, hp]
    · simp [List.findSome?, hp, ih]

theorem handle_fuzzy_eq (h : Header0) (s : String) (threshold : ℚ) :
    handle_fuzzy h s threshold =
      (firstAbove h s threshold).map (fun ht => ParseErr.fuzzyMatchSuccess ht s) := by
  rw [handle_fuzzy, firstAbove]
  exact findSome?_if_map (headersText h) (fun ht => threshold ≤ levenshtein_sim s ht) _

theorem argv_next_preserves (a : Argv) :
    (a.next).2.2.fuzzyMatch = a.fuzzyMatch ∧ (a.next).2.2.fuzzyThreshold = a.fuzzyThreshold := by
  rw [Argv.next]
  split <;> exact ⟨rfl, rfl⟩

theorem argv_rollback_preserves (a : Argv) (t : DToken) (b : Bool) :
    (a.rollback t b).fuzzyMatch = a.fuzzyMatch ∧
      (a.rollback t b).fuzzyThreshold = a.fuzzyThreshold := by
  rw [Argv.rollback]
  split
  · exact ⟨rfl, rfl⟩
  · split <;> exact ⟨rfl, rfl⟩

/-- After a failed content match on a string head, `analyse_header`
consumes the second token, rolls it back, and enters the fuzzy /
`InvalidParam` failure tail. -/
theorem analyse_header_failure_unfold (h : Header0) (argv argv1 : Argv) (s : String)
    (hnx : argv.next = (.str s, true, argv1))
    (hstep : header_content_step h (.str s) true argv1 = none) :
    analyse_header h argv =
      (if ((argv1.next).2.2.rollback (argv1.next).1 false).fuzzyMatch then
        match handle_fuzzy h s ((argv1.next).2.2.rollback (argv1.next).1 false).fuzzyThreshold with
        | some e => .error (e, (argv1.next).2.2.rollback (argv1.next).1 false)
        | none =>
          .error (.invalidParam ("header:" ++ s), (argv1.next).2.2.rollback (argv1.next).1 false)
      else
        .error (.invalidParam ("header:" ++ s),
          (argv1.next).2.2.rollback (argv1.next).1 false)) := by
  rw [analyse_header, hnx]
  simp only [hstep]
  rfl

/-- C5 (amended): with a string first token matched by no header variant,
if fuzzy matching is enabled and some header text's similarity to the
head reaches the threshold, `analyse_header` raises `FuzzyMatchSuccess`
carrying `source = that header text` and `target = the input head` (the
first such header in order); if every header is below the threshold — or
fuzzy matching is disabled — it raises `InvalidParam`, and
`FuzzyMatchSuccess` is never raised in that case. -/
theorem analyse_header_string_failure (h : Header0) (argv argv1 : Argv) (s : String)
    (hnx : argv.next = (.str s, true, argv1))
    (hfail : contentFails h (.str s)) :
    (argv1.fuzzyMatch = true →
      (∀ ht, firstAbove h s argv1.fuzzyThreshold = some ht →
        ∃ aerr, analyse_header h argv = .error (.fuzzyMatchSuccess ht s, aerr)) ∧
      (firstAbove h s argv1.fuzzyThreshold = none →
        ∃ m aerr, analyse_header h argv = .error (.invalidParam m, aerr))) ∧
    (argv1.fuzzyMatch = false →
      ∃ m aerr, analyse_header h argv = .error (.invalidParam m, aerr)) := by
  have hstep := header_content_step_none h (.str s) true argv1 hfail
  have hunfold := analyse_header_failure_unfold h argv argv1 s hnx hstep
  have hpres : ((argv1.next).2.2.rollback (argv1.next).1 false).fuzzyMatch = argv1.fuzzyMatch ∧
      ((argv1.next).2.2.rollback (argv1.next).1 false).fuzzyThreshold = argv1.fuzzyThreshold := by
    have h1 := argv_rollback_preserves (argv1.next).2.2 (argv1.next).1 false
    have h2 := argv_next_preserves argv1
    exact ⟨h1.1.trans h2.1, h1.2.trans h2.2⟩
  constructor
  · intro hfz
    constructor
    · intro ht hfa
      refine ⟨(argv1.next).2.2.rollback (argv1.next).1 false, ?_⟩
      rw [hunfold]
      rw [if_pos (by rw [hpres.1]; exact hfz)]
      rw [hpres.2, handle_fuzzy_eq, hfa]
      rfl
    · intro hfa
      refine ⟨"header:" ++ s, (argv1.next).2.2.rollback (argv1.next).1 false, ?_⟩
      rw [hunfold]
      rw [if_pos (by rw [hpres.1]; exact hfz)]
      rw [hpres.2, handle_fuzzy_eq, hfa]
      rfl
  · intro hfz
    refine ⟨"header:" ++ s, (argv1.next).2.2.rollback (argv1.next).1 false, ?_⟩
    rw [hunfold]
    rw [if_neg (by rw [hpres.1, hfz]; exact Bool.false_ne_true)]

/-- The header of the C5 scenarios: bare command `help`, literal-set
content. -/
def fuzzHeader : Header0 :=
  { originCmd := "help", pfxs := [], content := .hset ["help"], compact := false,
    compactRegex := fun _ => none, compactPat := rejectPat }

/-- The C5 input: the misspelt head `hlep`, fuzzy matching enabled with
threshold 1/2. -/
def fuzzArgv : Argv :=
  { argvOf [] [.str "hlep"] with fuzzyMatch := true, fuzzyThreshold := 1 / 2 }

def errFuzzyPair {α : Type} : Except (ParseErr × Argv) α → Option (String × String)
  | .error (.fuzzyMatchSuccess s t, _) => some (s, t)
  | _ => none

/-- `hlep` and `help` differ in two of four characters: similarity 1/2. -/
theorem levenshtein_sim_hlep_help : levenshtein_sim "hlep" "help" = 1 / 2 := by
  rw [levenshtein_sim, levenshtein_norm]
  rw [show levFun "hlep".toList "help".toList "hlep".toList.length "help".toList.length = 2
    from by rfl]
  rw [show "hlep".toList.length = 4 from by rfl, show "help".toList.length = 4 from by rfl]
  norm_num

theorem handle_fuzzy_hlep :
    handle_fuzzy fuzzHeader "hlep" (1 / 2 : ℚ) =
      some (.fuzzyMatchSuccess "help" "hlep") := by
  rw [handle_fuzzy]
  rw [show headersText fuzzHeader = ["help"] from rfl]
  simp only [List.findSome?]
  rw [if_pos (by rw [levenshtein_sim_hlep_help])]

/-- C5 counterexample: for input head `hlep` against header `help`
(similarity 1/2 ≥ threshold 1/2), the raised `FuzzyMatchSuccess` is
formatted with `source = "help"` (the header) and `target = "hlep"` (the
input) — the opposite of the claim's `(source=input, target=header)`. -/
theorem analyse_header_fuzzy_pair_swapped :
    errFuzzyPair (analyse_header fuzzHeader fuzzArgv) = some ("help", "hlep") ∧
      ("help" : String) ≠ "hlep" := by
  refine ⟨?_, by decide⟩
  have hunf := analyse_header_failure_unfold fuzzHeader fuzzArgv { fuzzArgv with idx := 1 }
    "hlep" rfl rfl
  have hA : ((({ fuzzArgv with idx := 1 } : Argv).next).2.2.rollback
      (({ fuzzArgv with idx := 1 } : Argv).next).1 false) = { fuzzArgv with idx := 1 } := rfl
  rw [hA] at hunf
  have hth : ({ fuzzArgv with idx := 1 } : Argv).fuzzyThreshold = (1 / 2 : ℚ) := rfl
  rw [hth, handle_fuzzy_hlep] at hunf
  rw [if_pos (show ({ fuzzArgv with idx := 1 } : Argv).fuzzyMatch = true from rfl)] at hunf
  rw [hunf]
  rfl

/-- Witness for C5 (amended) at the concrete misspelt input. -/
theorem analyse_header_string_failure_witness :
    ∃ aerr, analyse_header fuzzHeader fuzzArgv =
      .error (.fuzzyMatchSuccess "help" "hlep", aerr) := by
  have h := analyse_header_string_failure fuzzHeader fuzzArgv { fuzzArgv with idx := 1 }
    "hlep" rfl ⟨(by decide : ("hlep" : String) ∉ ["help"]), fun hc => absurd hc (by decide)⟩
  have hfa : firstAbove fuzzHeader "hlep" ({ fuzzArgv with idx := 1 } : Argv).fuzzyThreshold =
      some "help" := by
    rw [firstAbove]
    rw [show ({ fuzzArgv with idx := 1 } : Argv).fuzzyThreshold = (1 / 2 : ℚ) from rfl]
    rw [show headersText fuzzHeader = ["help"] from rfl]
    simp only [List.findSome?]
    rw [if_pos (by rw [levenshtein_sim_hlep_help])]
  exact (h.1 rfl).1 "help" hfa

/-! ## C8: regex-shortcut slot substitution
(`_handle_shortcut_reg`, `_handlers.py` lines 564-615)

`INDEX_REG_SLOT = re.compile(r"\{(\d+)\}")` and
`KEY_REG_SLOT = re.compile(r"\{(\w+)\}")` are modelled at character level:
`fullmatch` as a direct parse, `findall` as a left-to-right
non-overlapping scan (a digit or word accumulator between braces — since
`\d`/`\w` never match a brace, the regex engine's restarts after a failed
candidate can never find a match inside a discarded candidate, so a
single pass is exact), and `str.replace` as a left-to-right
non-overlapping replacement.  `_util.escape`/`unescape` are absent from
the source tree; the spec's shortcut section (§4.6) describes no escaping
of slot syntax, so they are modelled as the identity.  `\w` is modelled
over its ASCII fragment. -/

def isDigitC (c : Char) : Bool := c.isDigit

def isWordC (c : Char) : Bool := c.isAlphanum || c = '_'

/-- Python `int(...)` on a digit string. -/
def natOfDigits (ds : List Char) : ℕ := ds.foldl (fun a c => 10 * a + (c.toNat - 48)) 0

/-- `INDEX_REG_SLOT.fullmatch(unit)`: the whole unit is `{digits}`;
returns the digit string. -/
def idxSlotFull : List Char → Option (List Char)
  | [] => none
  | c :: rest =>
    if c = '{' then
      let ds := rest.takeWhile isDigitC
      if ds.isEmpty then none
      else if rest.drop ds.length = ['}'] then some ds else none
    else none

/-- `KEY_REG_SLOT.fullmatch(unit)`: the whole unit is `{wordchars}`. -/
def keySlotFull : List Char → Option (List Char)
  | [] => none
  | c :: rest =>
    if c = '{' then
      let ks := rest.takeWhile isWordC
      if ks.isEmpty then none
      else if rest.drop ks.length = ['}'] then some ks else none
    else none

/-- The `findall` scan for `\{(w+)\}` with `w` given by `wordp`: outside
braces, only `{` is significant; inside, accumulate `wordp` characters
until the closing `}` (a failed candidate falls back to scanning from
the failing character). -/
def scanSlots (wordp : Char → Bool) : List Char → Option (List Char) → List (List Char)
  | [], _ => []
  | c :: rest, some acc =>
    if wordp c then scanSlots wordp rest (some (acc ++ [c]))
    else if c = '}' ∧ ¬acc.isEmpty then acc :: scanSlots wordp rest none
    else if c = '{' then scanSlots wordp rest (some [])
    else scanSlots wordp rest none
  | c :: rest, none =>
    if c = '{' then scanSlots wordp rest (some []) else scanSlots wordp rest none

/-- `INDEX_REG_SLOT.findall(unit)` (as digit strings, in order). -/
def idxFindall (cs : List Char) : List (List Char) := scanSlots isDigitC cs none

/-- `KEY_REG_SLOT.findall(unit)`. -/
def keyFindall (cs : List Char) : List (List Char) := scanSlots isWordC cs none

/-- `str.replace(pat, sub)`: left-to-right, non-overlapping; the counter
skips the remainder of a replaced occurrence. -/
def replAux (pat sub : List Char) : List Char → ℕ → List Char
  | [], _ => []
  | _ :: rest, k + 1 => replAux pat sub rest k
  | c :: rest, 0 =>
    if pat.isPrefixOf (c :: rest) then sub ++ replAux pat sub rest (pat.length - 1)
    else c :: replAux pat sub rest 0

def replaceAll (pat sub cs : List Char) : List Char :=
  if pat.isEmpty then cs else replAux pat sub cs 0

/-- Python `x or slot` for `x = wrapper(...)`: `None` and the empty
string are falsy. -/
def pyOrStr (w : Option String) (slot : String) : String :=
  match w with
  | some v => if v = "" then slot else v
  | none => slot

/-- The `ShortcutRegWrapper` callback: takes the group index or name and
the captured text; `none` models a `None` return. -/
abbrev WrapFn := (ℕ ⊕ String) → String → Option String

/-- The replacement text for an embedded `{N}` slot:
`str(wrapper(index, slot) or slot)` for a valid matched group, the empty
string for an out-of-range index or an unmatched group. -/
def substIdx (groups : List (Option String)) (wrapper : WrapFn) (n : ℕ) : String :=
  if h : n < groups.length then
    match groups.get ⟨n, h⟩ with
    | none => ""
    | some s => pyOrStr (wrapper (.inl n) s) s
  else ""

/-- The replacement text for an embedded `{name}` slot. -/
def substKey (gdict : List (String × Option String)) (wrapper : WrapFn) (k : String) : String :=
  match alookup gdict k with
  | some (some s) => pyOrStr (wrapper (.inr k) s) s
  | _ => ""

/-- The per-unit body of `_handle_shortcut_reg` (lines 570-615): the two
fullmatch branches (dropping the unit for a missing/unmatched group,
appending the substitution — without an emptiness check — otherwise),
then the index-`findall` replacement pass followed by the key-`findall`
pass on the updated unit, dropping the unit when it ends up empty. -/
def rewriteUnit (groups : List (Option String)) (gdict : List (String × Option String))
    (wrapper : WrapFn) (u : List Char) : Option (List Char) :=
  match idxSlotFull u with
  | some ds =>
    let index := natOfDigits ds
    if h : index < groups.length then
      match groups.get ⟨index, h⟩ with
      | none => none
      | some s => some (pyOrStr (wrapper (.inl index) s) s).toList
    else none
  | none =>
    match keySlotFull u with
    | some ks =>
      let key := String.mk ks
      match alookup gdict key with
      | some (some s) => some (pyOrStr (wrapper (.inr key) s) s).toList
      | _ => none
    | none =>
      let u1 := (idxFindall u).foldl (fun acc ds =>
        let index := natOfDigits ds
        replaceAll ('{' :: (Nat.repr index).toList ++ ['}'])
          (substIdx groups wrapper index).toList acc) u
      let u2 := (keyFindall u1).foldl (fun acc ks =>
        replaceAll ('{' :: ks ++ ['}']) (substKey gdict wrapper (String.mk ks)).toList acc) u1
      if u2.isEmpty then none else some u2

/-- `_handle_shortcut_reg(argv, groups, gdict, wrapper)`: rebuild the
token data, keeping non-string tokens, rewriting string units, and
dropping units that vanish. -/
def handle_shortcut_reg (dataIn : List DToken) (groups : List (Option String))
    (gdict : List (String × Option String)) (wrapper : WrapFn) : List DToken :=
  dataIn.foldl (fun acc unit =>
    match unit with
    | .obj n => acc ++ [.obj n]
    | .str u =>
      match rewriteUnit groups gdict wrapper u.toList with
      | some cs => acc ++ [.str (String.mk cs)]
      | none => acc) []

/-- A group tuple whose eighth entry (index 7) captured `"G"`. -/
def groups7 : List (Option String) :=
  [none, none, none, none, none, none, none, some "G"]

/-- C8 counterexample, four concrete divergences from the claimed
semantics, one per conjunct:

1. The embedded slot `\x7b007\x7d` names the existing, matched capture
   group 7 (`int("007") = 7`), but the rewrite erases it instead of
   substituting the captured text `G`: the index pass rebuilds the slot
   text canonically (`"\x7b7\x7d"`), which does not occur in the unit,
   and the key pass then deletes `\x7b007\x7d` as an unknown name — so
   substitution only happens for canonically written index slots.
2. A whole-unit slot whose group captured the empty string is KEPT as an
   empty string token (`data.append(wrapper(index, slot) or slot)`, line
   582, has no emptiness check) — the fullmatch path never drops.
3. A unit whose embedded rewrite ends empty is DROPPED from the token
   data (`if unit: data.append(...)`, line 613) rather than contributing
   an empty string — so empty substitutions behave differently on the
   two paths, and a uniform piecewise semantics needs the non-empty
   proviso.
4. A captured text that itself contains brace material (here group 0
   captured `"\x7b1\x7d"`) is re-scanned by the key pass and erased, so
   the final token is `"a"`, not the claimed literal-plus-captured-text
   `"a\x7b1\x7d"` — substitution of the captured text only holds for
   brace-free substitution texts. -/
theorem shortcut_reg_slot_divergences :
    (handle_shortcut_reg [.str "x\x7b007\x7d"] groups7 [] (fun _ _ => none) = [.str "x"] ∧
      groups7.getD 7 none = some "G") ∧
    handle_shortcut_reg [.str "\x7b0\x7d"] [some ""] [] (fun _ _ => none) = [.str ""] ∧
    handle_shortcut_reg [.str "\x7b0\x7d\x7b1\x7d"] [some "", some ""] []
      (fun _ _ => none) = [] ∧
    (handle_shortcut_reg [.str "a\x7b0\x7d"] [some "\x7b1\x7d"] [] (fun _ _ => none)
        = [.str "a"] ∧
      [some "\x7b1\x7d"].getD 0 none = some "\x7b1\x7d") :=
  ⟨⟨rfl, rfl⟩, rfl, rfl, rfl, rfl⟩

/-- The slot decomposition of a shortcut unit: literal text, an index
slot `{N}` (as its digit string), or a named slot `{name}`. -/
inductive SPiece where
  | lit (s : String)
  | islot (ds : List Char)
  | kslot (k : String)

def renderPiece : SPiece → List Char
  | .lit s => s.toList
  | .islot ds => '{' :: ds ++ ['}']
  | .kslot k => '{' :: k.toList ++ ['}']

def renderPieces (ps : List SPiece) : List Char := (ps.map renderPiece).join

def braceFree (cs : List Char) : Prop := '{' ∉ cs ∧ '}' ∉ cs

/-- Well-formedness used by the scanning/replacement lemmas: literal text
carries no braces; an index slot is a non-empty canonical digit string (no
leading zeros, as Python prints it back); a named slot is a non-empty
word string that is not all digits (Python group names cannot be). -/
def wfScanPiece : SPiece → Prop
  | .lit s => braceFree s.toList
  | .islot ds => ds ≠ [] ∧ (∀ c ∈ ds, isDigitC c = true) ∧
      Nat.repr (natOfDigits ds) = String.mk ds
  | .kslot k => k.toList ≠ [] ∧ (∀ c ∈ k.toList, isWordC c = true) ∧
      ¬(∀ c ∈ k.toList, isDigitC c = true)

/-- Full well-formedness of a decomposition: additionally, literal pieces
are non-empty (so the decomposition is unambiguous). -/
def wfUnitPiece (p : SPiece) : Prop :=
  wfScanPiece p ∧ ∀ s, p = .lit s → s ≠ ""

/-- Modelled from the spec (§4.6): "`\x7bN\x7d` / `\x7bname\x7d` —
substitute regex capture group; missing groups become empty", with the
wrapper applied to each captured value before substitution. -/
def specSubstPiece (groups : List (Option String)) (gdict : List (String × Option String))
    (wrapper : WrapFn) : SPiece → List Char
  | .lit s => s.toList
  | .islot ds => (substIdx groups wrapper (natOfDigits ds)).toList
  | .kslot k => (substKey gdict wrapper k).toList

/-- Modelled from the spec (§4.6), applied piecewise to a whole unit.
This is the spec's substitution verbatim: it is total, since §4.6 says
nothing about dropping units. -/
def specSubstUnit (groups : List (Option String)) (gdict : List (String × Option String))
    (wrapper : WrapFn) (ps : List SPiece) : List Char :=
  (ps.map (specSubstPiece groups gdict wrapper)).join

/-- The AMENDED per-unit semantics: the spec's substitution
(`specSubstUnit`) followed by the source's drop-empty-unit behaviour
(`if unit: data.append(...)`, `_handlers.py` line 613), which is absent
from §4.6's words and is part of the correction — exhibited concretely
in `shortcut_reg_slot_divergences` part 3. -/
def specRewriteUnit (groups : List (Option String)) (gdict : List (String × Option String))
    (wrapper : WrapFn) (ps : List SPiece) : Option (List Char) :=
  let r := specSubstUnit groups gdict wrapper ps
  if r.isEmpty then none else some r

theorem digit_no_brace {c : Char} (h : isDigitC c = true) : c ≠ '{' ∧ c ≠ '}' := by
  constructor <;> rintro rfl <;> exact absurd h (by decide)

theorem word_no_brace {c : Char} (h : isWordC c = true) : c ≠ '{' ∧ c ≠ '}' := by
  constructor <;> rintro rfl <;> exact absurd h (by decide)

theorem digit_is_word {c : Char} (h : isDigitC c = true) : isWordC c = true := by
  rw [isWordC, Bool.or_eq_true]
  left
  rw [Char.isAlphanum, Bool.or_eq_true]
  right
  exact h

theorem scan_skip (wordp : Char → Bool) (l : List Char) :
    ∀ rest, '{' ∉ l → scanSlots wordp (l ++ rest) none = scanSlots wordp rest none := by
  induction l with
  | nil => intro rest _; rfl
  | cons c l ih =>
    intro rest hl
    have hc : c ≠ '{' := fun he => hl (he ▸ List.mem_cons_self c l)
    have hl' : '{' ∉ l := fun hm => hl (List.mem_cons_of_mem c hm)
    rw [List.cons_append, scanSlots, if_neg (by simpa using hc)]
    exact ih rest hl'

theorem scan_accept (wordp : Char → Bool) (hwr : wordp '}' = false) :
    ∀ (ds acc : List Char) (rest : List Char), (∀ c ∈ ds, wordp c = true) → acc ≠ [] ∨ ds ≠ [] →
      scanSlots wordp (ds ++ '}' :: rest) (some acc) =
        (acc ++ ds) :: scanSlots wordp rest none := by
  intro ds
  induction ds with
  | nil =>
    intro acc rest _ hne
    have hacc : acc ≠ [] := by
      rcases hne with h | h
      · exact h
      · exact absurd rfl h
    rw [List.nil_append, scanSlots, if_neg (by simp [hwr])]
    rw [if_pos ⟨rfl, by simpa using hacc⟩]
    simp
  | cons d ds ih =>
    intro acc rest hall hne
    have hd : wordp d = true := hall d (List.mem_cons_self d ds)
    rw [List.cons_append, scanSlots, if_pos hd]
    rw [ih (acc ++ [d]) rest (fun c hc => hall c (List.mem_cons_of_mem d hc))
      (Or.inl (by simp))]
    simp

theorem scan_reject (wordp : Char → Bool) (_hwl : wordp '{' = false) :
    ∀ (ds acc : List Char) (rest : List Char), (∀ c ∈ ds, c ≠ '{' ∧ c ≠ '}') →
      (∃ c ∈ ds, wordp c = false) →
      scanSlots wordp (ds ++ '}' :: rest) (some acc) = scanSlots wordp rest none := by
  intro ds
  induction ds with
  | nil =>
    intro acc rest _ hex
    simp at hex
  | cons d ds ih =>
    intro acc rest hnb hex
    rw [List.cons_append, scanSlots]
    by_cases hd : wordp d = true
    · rw [if_pos hd]
      refine ih (acc ++ [d]) rest (fun c hc => hnb c (List.mem_cons_of_mem d hc)) ?_
      rcases hex with ⟨c, hc, hcf⟩
      rcases List.mem_cons.mp hc with h | h
      · subst h; rw [hd] at hcf; cases hcf
      · exact ⟨c, h, hcf⟩
    · rw [if_neg hd]
      have hd1 : d ≠ '}' := (hnb d (List.mem_cons_self d ds)).2
      have hd2 : d ≠ '{' := (hnb d (List.mem_cons_self d ds)).1
      rw [if_neg (by simp [hd1])]
      rw [if_neg (by simpa using hd2)]
      have hds : '{' ∉ ds := fun hm => (hnb _ (List.mem_cons_of_mem d hm)).1 rfl
      have := scan_skip wordp ds ('}' :: rest) hds
      rw [this, scanSlots, if_neg (by decide)]

/-- What the `findall` scan reports for one piece: a slot whose content
is all `wordp`-characters. -/
def scanPiece (wordp : Char → Bool) : SPiece → Option (List Char)
  | .lit _ => none
  | .islot ds => if ds.all wordp then some ds else none
  | .kslot k => if k.toList.all wordp then some k.toList else none

theorem renderPieces_cons (p : SPiece) (ps : List SPiece) :
    renderPieces (p :: ps) = renderPiece p ++ renderPieces ps := by
  rw [renderPieces, List.map_cons, List.join]
  rfl

theorem scan_render (wordp : Char → Bool) (hwl : wordp '{' = false)
    (hwr : wordp '}' = false) :
    ∀ ps : List SPiece, (∀ p ∈ ps, wfScanPiece p) →
      scanSlots wordp (renderPieces ps) none = ps.filterMap (scanPiece wordp) := by
  intro ps
  induction ps with
  | nil => intro _; rfl
  | cons p ps ih =>
    intro hwf
    have hwfp := hwf p (List.mem_cons_self p ps)
    have hwfr := fun q hq => hwf q (List.mem_cons_of_mem p hq)
    rw [renderPieces_cons]
    cases p with
    | lit s =>
      have h1 : renderPiece (.lit s) = s.toList := rfl
      rw [h1, scan_skip wordp s.toList (renderPieces ps) hwfp.1, ih hwfr]
      rfl
    | islot ds =>
      obtain ⟨hne, hall, _⟩ := hwfp
      have hnb : ∀ c ∈ ds, c ≠ '{' ∧ c ≠ '}' := fun c hc => digit_no_brace (hall c hc)
      have hstep : renderPiece (.islot ds) ++ renderPieces ps =
          '{' :: (ds ++ '}' :: renderPieces ps) := by
        rw [renderPiece]
        simp
      rw [hstep, scanSlots, if_pos rfl]
      by_cases hall' : ds.all wordp
      · rw [scan_accept wordp hwr ds [] (renderPieces ps)
          (fun c hc => by simpa using (List.all_eq_true.mp hall') c hc) (Or.inr hne)]
        rw [ih hwfr]
        simp [scanPiece, hall']
      · have hex : ∃ c ∈ ds, wordp c = false := by
          rcases List.all_eq_false.mp (Bool.eq_false_iff.mpr hall') with ⟨c, hc, hcf⟩
          exact ⟨c, hc, by simpa using hcf⟩
        rw [scan_reject wordp hwl ds [] (renderPieces ps) hnb hex, ih hwfr]
        simp [scanPiece, hall']
    | kslot k =>
      obtain ⟨hne, hall, _⟩ := hwfp
      have hnb : ∀ c ∈ k.toList, c ≠ '{' ∧ c ≠ '}' := fun c hc => word_no_brace (hall c hc)
      have hstep : renderPiece (.kslot k) ++ renderPieces ps =
          '{' :: (k.toList ++ '}' :: renderPieces ps) := by
        rw [renderPiece]
        simp
      rw [hstep, scanSlots, if_pos rfl]
      by_cases hall' : k.toList.all wordp
      · have hs : scanPiece wordp (.kslot k) = some k.toList := by
          simp only [scanPiece]
          rw [if_pos hall']
        rw [scan_accept wordp hwr k.toList [] (renderPieces ps)
          (fun c hc => by simpa using (List.all_eq_true.mp hall') c hc) (Or.inr hne)]
        rw [ih hwfr, List.nil_append, List.filterMap_cons, hs]
      · have hex : ∃ c ∈ k.toList, wordp c = false := by
          rcases List.all_eq_false.mp (Bool.eq_false_iff.mpr hall') with ⟨c, hc, hcf⟩
          exact ⟨c, hc, by simpa using hcf⟩
        have hs : scanPiece wordp (.kslot k) = none := by
          simp only [scanPiece]
          rw [if_neg hall']
        rw [scan_reject wordp hwl k.toList [] (renderPieces ps) hnb hex, ih hwfr,
          List.filterMap_cons, hs]

/-- The index-slot digit strings of a decomposition, in order. -/
def islotsOf : List SPiece → List (List Char) :=
  List.filterMap fun p => match p with | .islot ds => some ds | _ => none

/-- The named-slot character strings of a decomposition, in order. -/
def kslotsOf : List SPiece → List (List Char) :=
  List.filterMap fun p => match p with | .kslot k => some k.toList | _ => none

theorem mem_islotsOf {ds : List Char} {ps : List SPiece} (h : ds ∈ islotsOf ps) :
    SPiece.islot ds ∈ ps := by
  rcases List.mem_filterMap.mp h with ⟨p, hp, he⟩
  cases p with
  | lit s => simp at he
  | islot es => simp at he; rw [← he]; exact hp
  | kslot k => simp at he

theorem mem_kslotsOf {ks : List Char} {ps : List SPiece} (h : ks ∈ kslotsOf ps) :
    ∃ k : String, k.toList = ks ∧ SPiece.kslot k ∈ ps := by
  rcases List.mem_filterMap.mp h with ⟨p, hp, he⟩
  cases p with
  | lit s => simp at he
  | islot es => simp at he
  | kslot k => simp at he; exact ⟨k, he, hp⟩

theorem filterMap_scan_digit : ∀ ps : List SPiece, (∀ p ∈ ps, wfScanPiece p) →
    ps.filterMap (scanPiece isDigitC) = islotsOf ps := by
  intro ps
  induction ps with
  | nil => intro _; rfl
  | cons p ps ih =>
    intro hwf
    have hwfp := hwf p (List.mem_cons_self p ps)
    have ihr := ih (fun q hq => hwf q (List.mem_cons_of_mem p hq))
    cases p with
    | lit s =>
      rw [islotsOf, List.filterMap_cons, List.filterMap_cons]
      simp only [scanPiece]
      exact ihr
    | islot ds =>
      have hall : ds.all isDigitC = true := by
        rw [List.all_eq_true]; intro c hc; simpa using hwfp.2.1 c hc
      rw [islotsOf, List.filterMap_cons, List.filterMap_cons]
      simp only [scanPiece, hall, if_true]
      rw [ihr]
      rfl
    | kslot k =>
      have hnall : k.toList.all isDigitC = false := by
        rw [Bool.eq_false_iff]
        intro hc
        exact hwfp.2.2 (fun c hcm => by simpa using (List.all_eq_true.mp hc) c hcm)
      rw [islotsOf, List.filterMap_cons, List.filterMap_cons]
      simp only [scanPiece, hnall]
      simpa using ihr

theorem filterMap_scan_word : ∀ ps : List SPiece, (∀ p ∈ ps, wfScanPiece p) →
    (∀ ds, SPiece.islot ds ∉ ps) →
    ps.filterMap (scanPiece isWordC) = kslotsOf ps := by
  intro ps
  induction ps with
  | nil => intro _ _; rfl
  | cons p ps ih =>
    intro hwf hni
    have hwfp := hwf p (List.mem_cons_self p ps)
    have ihr := ih (fun q hq => hwf q (List.mem_cons_of_mem p hq))
      (fun ds hm => hni ds (List.mem_cons_of_mem p hm))
    cases p with
    | lit s =>
      rw [kslotsOf, List.filterMap_cons, List.filterMap_cons]
      simp only [scanPiece]
      exact ihr
    | islot ds => exact absurd (List.mem_cons_self _ ps) (hni ds)
    | kslot k =>
      have hall : k.toList.all isWordC = true := by
        rw [List.all_eq_true]; intro c hc; simpa using hwfp.2.1 c hc
      rw [kslotsOf, List.filterMap_cons, List.filterMap_cons]
      simp only [scanPiece, hall, if_true]
      rw [ihr]
      rfl

theorem takeWhile_all_append (p : Char → Bool) :
    ∀ (l : List Char) (b : Char) (r : List Char), (∀ c ∈ l, p c = true) → p b = false →
      ((l ++ b :: r).takeWhile p) = l := by
  intro l
  induction l with
  | nil =>
    intro b r _ hb
    rw [List.nil_append, List.takeWhile_cons, hb]
    rfl
  | cons c l ih =>
    intro b r hall hb
    rw [List.cons_append, List.takeWhile_cons, hall c (List.mem_cons_self c l)]
    rw [ih b r (fun x hx => hall x (List.mem_cons_of_mem c hx)) hb]
    rfl

theorem idxSlotFull_digits (ds R : List Char) (hne : ds ≠ [])
    (hall : ∀ c ∈ ds, isDigitC c = true) :
    idxSlotFull ('{' :: ds ++ '}' :: R) = (if R = [] then some ds else none) := by
  have htw := takeWhile_all_append isDigitC ds '}' R hall (by decide)
  rw [show ('{' :: ds ++ '}' :: R) = ('{' :: (ds ++ '}' :: R)) from rfl, idxSlotFull,
    if_pos rfl]
  simp only [htw]
  rw [if_neg (by simp [hne]), List.drop_left]
  by_cases hR : R = []
  · rw [if_pos (by rw [hR]), if_pos hR]
  · rw [if_neg (by simp [hR]), if_neg hR]

theorem keySlotFull_words (ks R : List Char) (hne : ks ≠ [])
    (hall : ∀ c ∈ ks, isWordC c = true) :
    keySlotFull ('{' :: ks ++ '}' :: R) = (if R = [] then some ks else none) := by
  have htw := takeWhile_all_append isWordC ks '}' R hall (by decide)
  rw [show ('{' :: ks ++ '}' :: R) = ('{' :: (ks ++ '}' :: R)) from rfl, keySlotFull,
    if_pos rfl]
  simp only [htw]
  rw [if_neg (by simp [hne]), List.drop_left]
  by_cases hR : R = []
  · rw [if_pos (by rw [hR]), if_pos hR]
  · rw [if_neg (by simp [hR]), if_neg hR]

theorem idxSlotFull_head_ne (c : Char) (t : List Char) (hc : c ≠ '{') :
    idxSlotFull (c :: t) = none := by
  rw [idxSlotFull, if_neg hc]

theorem keySlotFull_head_ne (c : Char) (t : List Char) (hc : c ≠ '{') :
    keySlotFull (c :: t) = none := by
  rw [keySlotFull, if_neg hc]

theorem takeWhile_digits_stuck : ∀ (k : List Char) (R : List Char),
    (∀ c ∈ k, isWordC c = true) → (¬ ∀ c ∈ k, isDigitC c = true) →
    ((k ++ '}' :: R).takeWhile isDigitC).isEmpty = true ∨
      (k ++ '}' :: R).drop ((k ++ '}' :: R).takeWhile isDigitC).length ≠ ['}'] := by
  intro k
  induction k with
  | nil =>
    intro R _ hnd
    exact absurd (fun c hc => absurd hc (List.not_mem_nil c)) hnd
  | cons c k ih =>
    intro R hall hnd
    by_cases hd : isDigitC c = true
    · have hnd' : ¬ ∀ x ∈ k, isDigitC x = true := by
        intro hf
        exact hnd (fun x hx => by
          rcases List.mem_cons.mp hx with h | h
          · rw [h]; exact hd
          · exact hf x h)
      have hall' : ∀ x ∈ k, isWordC x = true :=
        fun x hx => hall x (List.mem_cons_of_mem c hx)
      rw [List.cons_append, List.takeWhile_cons, hd]
      right
      simp only [if_true, List.length_cons, List.drop_succ_cons]
      rcases ih R hall' hnd' with h | h
      · have h0 : ((k ++ '}' :: R).takeWhile isDigitC) = [] := by
          simpa using h
        rw [h0, List.length_nil, List.drop_zero]
        rcases k with _ | ⟨c', k'⟩
        · exact absurd (fun x hx => absurd hx (List.not_mem_nil x)) hnd'
        · intro hcontra
          have := congrArg List.length hcontra
          simp at this
      · exact h
    · left
      rw [List.cons_append, List.takeWhile_cons]
      simp [hd]

theorem idxSlotFull_word_none (k R : List Char)
    (hall : ∀ c ∈ k, isWordC c = true) (hnd : ¬ ∀ c ∈ k, isDigitC c = true) :
    idxSlotFull ('{' :: k ++ '}' :: R) = none := by
  rw [show ('{' :: k ++ '}' :: R) = ('{' :: (k ++ '}' :: R)) from rfl, idxSlotFull,
    if_pos rfl]
  rcases takeWhile_digits_stuck k R hall hnd with h | h
  · simp [h]
  · simp [h]

theorem renderPiece_ne_nil (p : SPiece) (hwf : wfUnitPiece p) : renderPiece p ≠ [] := by
  cases p with
  | lit s =>
    intro h
    apply hwf.2 s rfl
    cases s with
    | mk d =>
      simp only [renderPiece, String.toList] at h
      rw [h]
  | islot ds => exact List.cons_ne_nil _ _
  | kslot k => exact List.cons_ne_nil _ _

theorem renderPieces_cons_ne_nil (q : SPiece) (t : List SPiece) (hwf : wfUnitPiece q) :
    renderPieces (q :: t) ≠ [] := by
  rw [renderPieces_cons]
  intro h
  exact renderPiece_ne_nil q hwf (List.append_eq_nil.mp h).1

theorem isPrefixOf_cons_cons (a b : Char) (l t : List Char) :
    (a :: l).isPrefixOf (b :: t) = (a == b && l.isPrefixOf t) := rfl

theorem slot_prefix_iff : ∀ (cs ds r : List Char), '}' ∉ cs → '}' ∉ ds →
    ((cs ++ ['}']).isPrefixOf (ds ++ '}' :: r) = true ↔ cs = ds) := by
  intro cs
  induction cs with
  | nil =>
    intro ds r _ hds
    cases ds with
    | nil =>
      rw [List.nil_append, List.nil_append, isPrefixOf_cons_cons]
      simp [List.isPrefixOf]
    | cons d ds' =>
      have hd : d ≠ '}' := fun he => hds (he ▸ List.mem_cons_self d ds')
      constructor
      · intro h
        rw [List.nil_append, List.cons_append, isPrefixOf_cons_cons] at h
        have hh : '}' = d := by simpa using h
        exact absurd hh.symm hd
      · intro h; exact absurd h (by simp)
  | cons c cs' ih =>
    intro ds r hcs hds
    have hcs' : '}' ∉ cs' := fun hm => hcs (List.mem_cons_of_mem c hm)
    cases ds with
    | nil =>
      have hc : c ≠ '}' := fun he => hcs (he ▸ List.mem_cons_self c cs')
      constructor
      · intro h
        rw [List.cons_append, List.nil_append, isPrefixOf_cons_cons] at h
        have hh : c = '}' := by simpa using (Bool.and_elim_left h)
        exact absurd hh hc
      · intro h; exact absurd h (by simp)
    | cons d ds' =>
      have hds' : '}' ∉ ds' := fun hm => hds (List.mem_cons_of_mem d hm)
      rw [List.cons_append, List.cons_append, isPrefixOf_cons_cons]
      constructor
      · intro h
        have hsp : c = d ∧ ((cs' ++ ['}']).isPrefixOf (ds' ++ '}' :: r)) = true := by
          simpa using h
        rw [hsp.1, (ih ds' r hcs' hds').mp hsp.2]
      · intro h
        injection h with h1 h2
        rw [h1]
        simp [(ih ds' r hcs' hds').mpr h2]

theorem replAux_skip (pt sub : List Char) : ∀ (l ys : List Char), '{' ∉ l →
    replAux ('{' :: pt) sub (l ++ ys) 0 = l ++ replAux ('{' :: pt) sub ys 0 := by
  intro l
  induction l with
  | nil => intro ys _; rw [List.nil_append, List.nil_append]
  | cons c l ih =>
    intro ys hl
    have hc : c ≠ '{' := fun he => hl (he ▸ List.mem_cons_self c l)
    rw [List.cons_append, replAux, if_neg (by
      rw [isPrefixOf_cons_cons]
      simp
      intro he
      exact absurd he.symm hc)]
    rw [ih ys (fun hm => hl (List.mem_cons_of_mem c hm)), List.cons_append]

theorem replAux_drop (pat sub : List Char) : ∀ (xs ys : List Char),
    replAux pat sub (xs ++ ys) xs.length = replAux pat sub ys 0 := by
  intro xs
  induction xs with
  | nil => intro ys; rw [List.nil_append, List.length_nil]
  | cons x xs ih =>
    intro ys
    rw [List.cons_append, List.length_cons, replAux]
    exact ih ys

/-- The effect of one `str.replace` pass on a decomposition: the slot whose
rendered text is the pattern becomes literal substituted text. -/
def replacePiece (cs sub : List Char) : SPiece → SPiece
  | .lit s => .lit s
  | .islot ds => if ds = cs then .lit (String.mk sub) else .islot ds
  | .kslot k => if k.toList = cs then .lit (String.mk sub) else .kslot k

theorem replaceAll_render (cs sub : List Char) (hcs : '}' ∉ cs) :
    ∀ ps : List SPiece, (∀ p ∈ ps, wfScanPiece p) →
      replaceAll ('{' :: cs ++ ['}']) sub (renderPieces ps)
        = renderPieces (ps.map (replacePiece cs sub)) := by
  have hlen : ('{' :: (cs ++ ['}'])).length - 1 = (cs ++ ['}']).length := by
    simp
  intro ps
  induction ps with
  | nil => intro _; rfl
  | cons p ps ih =>
    intro hwf
    have hwfp := hwf p (List.mem_cons_self p ps)
    have ihr := ih (fun q hq => hwf q (List.mem_cons_of_mem p hq))
    rw [replaceAll] at ihr ⊢
    rw [if_neg (by simp)] at ihr ⊢
    rw [show ('{' :: cs ++ ['}']) = ('{' :: (cs ++ ['}'])) from rfl] at ihr ⊢
    rw [renderPieces_cons]
    cases p with
    | lit s =>
      have h1 : renderPiece (.lit s) = s.toList := rfl
      rw [h1, replAux_skip (cs ++ ['}']) sub s.toList (renderPieces ps) hwfp.1, ihr]
      rw [List.map_cons, renderPieces_cons]
      rfl
    | islot ds =>
      obtain ⟨hne, hall, _⟩ := hwfp
      have hnb : '}' ∉ ds := fun hm => (digit_no_brace (hall _ hm)).2 rfl
      have hlb : '{' ∉ ds := fun hm => (digit_no_brace (hall _ hm)).1 rfl
      have hstep : renderPiece (.islot ds) ++ renderPieces ps =
          '{' :: (ds ++ '}' :: renderPieces ps) := by
        rw [renderPiece]; simp
      rw [hstep, replAux]
      by_cases heq : ds = cs
      · rw [List.map_cons, renderPieces_cons, replacePiece, if_pos heq]
        rw [if_pos (by
          rw [isPrefixOf_cons_cons]
          simp only [beq_self_eq_true, Bool.true_and]
          exact (slot_prefix_iff cs ds (renderPieces ps) hcs hnb).mpr heq.symm)]
        rw [hlen, show ds ++ '}' :: renderPieces ps
            = (ds ++ ['}']) ++ renderPieces ps by simp, heq, replAux_drop, ihr]
        rfl
      · rw [List.map_cons, renderPieces_cons, replacePiece, if_neg heq]
        rw [if_neg (by
          rw [isPrefixOf_cons_cons]
          simp only [beq_self_eq_true, Bool.true_and]
          intro hpre
          exact heq ((slot_prefix_iff cs ds (renderPieces ps) hcs hnb).mp hpre).symm)]
        rw [replAux_skip (cs ++ ['}']) sub ds ('}' :: renderPieces ps) hlb]
        rw [replAux, if_neg (by rw [isPrefixOf_cons_cons]; simp), ihr]
        rw [renderPiece]
        simp
    | kslot k =>
      obtain ⟨hne, hall, _⟩ := hwfp
      have hnb : '}' ∉ k.toList := fun hm => (word_no_brace (hall _ hm)).2 rfl
      have hlb : '{' ∉ k.toList := fun hm => (word_no_brace (hall _ hm)).1 rfl
      have hstep : renderPiece (.kslot k) ++ renderPieces ps =
          '{' :: (k.toList ++ '}' :: renderPieces ps) := by
        rw [renderPiece]; simp
      rw [hstep, replAux]
      by_cases heq : k.toList = cs
      · rw [List.map_cons, renderPieces_cons, replacePiece, if_pos heq]
        rw [if_pos (by
          rw [isPrefixOf_cons_cons]
          simp only [beq_self_eq_true, Bool.true_and]
          exact (slot_prefix_iff cs k.toList (renderPieces ps) hcs hnb).mpr heq.symm)]
        rw [hlen, show k.toList ++ '}' :: renderPieces ps
            = (k.toList ++ ['}']) ++ renderPieces ps by simp, heq, replAux_drop, ihr]
        rfl
      · rw [List.map_cons, renderPieces_cons, replacePiece, if_neg heq]
        rw [if_neg (by
          rw [isPrefixOf_cons_cons]
          simp only [beq_self_eq_true, Bool.true_and]
          intro hpre
          exact heq ((slot_prefix_iff cs k.toList (renderPieces ps) hcs hnb).mp hpre).symm)]
        rw [replAux_skip (cs ++ ['}']) sub k.toList ('}' :: renderPieces ps) hlb]
        rw [replAux, if_neg (by rw [isPrefixOf_cons_cons]; simp), ihr]
        rw [renderPiece]
        simp

theorem foldl_ext {α β : Type} (f g : α → β → α) :
    ∀ (L : List β) (a : α), (∀ b ∈ L, ∀ x, f x b = g x b) → L.foldl f a = L.foldl g a := by
  intro L
  induction L with
  | nil => intro a _; rfl
  | cons b L ih =>
    intro a hfg
    rw [List.foldl_cons, List.foldl_cons, hfg b (List.mem_cons_self b L) a]
    exact ih (g a b) (fun x hx y => hfg x (List.mem_cons_of_mem b hx) y)

theorem foldl_map_comm {β : Type} (f : β → SPiece → SPiece) :
    ∀ (L : List β) (qs : List SPiece),
      L.foldl (fun acc b => acc.map (f b)) qs
        = qs.map (fun p => L.foldl (fun q b => f b q) p) := by
  intro L
  induction L with
  | nil =>
    intro qs
    rw [List.foldl_nil]
    have : (fun p : SPiece => List.foldl (fun q b => f b q) p []) = fun p => p := by
      funext p; rfl
    rw [this, List.map_id']
  | cons b L ih =>
    intro qs
    rw [List.foldl_cons, ih (qs.map (f b)), List.map_map]
    rfl

theorem wfScan_replacePiece (cs sub' : List Char) (hsub' : braceFree sub') (p : SPiece)
    (hwf : wfScanPiece p) : wfScanPiece (replacePiece cs sub' p) := by
  cases p with
  | lit s => exact hwf
  | islot ds =>
    rw [replacePiece]
    by_cases h : ds = cs
    · rw [if_pos h]; exact hsub'
    · rw [if_neg h]; exact hwf
  | kslot k =>
    rw [replacePiece]
    by_cases h : k.toList = cs
    · rw [if_pos h]; exact hsub'
    · rw [if_neg h]; exact hwf

theorem fold_replace_render (sub : List Char → List Char)
    (hsub : ∀ cs, braceFree (sub cs)) :
    ∀ (L : List (List Char)) (ps : List SPiece),
      (∀ cs ∈ L, '}' ∉ cs) → (∀ p ∈ ps, wfScanPiece p) →
      L.foldl (fun acc cs => replaceAll ('{' :: cs ++ ['}']) (sub cs) acc) (renderPieces ps)
        = renderPieces (L.foldl (fun qs cs => qs.map (replacePiece cs (sub cs))) ps) := by
  intro L
  induction L with
  | nil => intro ps _ _; rfl
  | cons cs L ih =>
    intro ps hL hwf
    rw [List.foldl_cons, List.foldl_cons,
      replaceAll_render cs (sub cs) (hL cs (List.mem_cons_self cs L)) ps hwf]
    exact ih (ps.map (replacePiece cs (sub cs)))
      (fun x hx => hL x (List.mem_cons_of_mem cs hx))
      (fun q hq => by
        rcases List.mem_map.mp hq with ⟨p, hp, he⟩
        rw [← he]
        exact wfScan_replacePiece cs (sub cs) (hsub cs) p (hwf p hp))

theorem applyL_lit (sub : List Char → List Char) :
    ∀ (L : List (List Char)) (s : String),
      L.foldl (fun q cs => replacePiece cs (sub cs) q) (.lit s) = .lit s := by
  intro L
  induction L with
  | nil => intro s; rfl
  | cons cs L ih =>
    intro s
    rw [List.foldl_cons]
    exact ih s

theorem applyL_islot (sub : List Char → List Char) :
    ∀ (L : List (List Char)) (ds : List Char), ds ∈ L →
      L.foldl (fun q cs => replacePiece cs (sub cs) q) (.islot ds)
        = .lit (String.mk (sub ds)) := by
  intro L
  induction L with
  | nil => intro ds h; exact absurd h (List.not_mem_nil ds)
  | cons cs L ih =>
    intro ds hmem
    rw [List.foldl_cons]
    by_cases h : ds = cs
    · rw [show replacePiece cs (sub cs) (.islot ds) = .lit (String.mk (sub cs)) from by
        rw [replacePiece, if_pos h]]
      rw [applyL_lit sub L, h]
    · rw [show replacePiece cs (sub cs) (.islot ds) = .islot ds from by
        rw [replacePiece, if_neg h]]
      rcases List.mem_cons.mp hmem with hh | hh
      · exact absurd hh h
      · exact ih ds hh

theorem applyL_kslot_digits (sub : List Char → List Char) :
    ∀ (L : List (List Char)) (k : String),
      (∀ cs ∈ L, ∀ c ∈ cs, isDigitC c = true) →
      (¬ ∀ c ∈ k.toList, isDigitC c = true) →
      L.foldl (fun q cs => replacePiece cs (sub cs) q) (.kslot k) = .kslot k := by
  intro L
  induction L with
  | nil => intro k _ _; rfl
  | cons cs L ih =>
    intro k hdig hnd
    rw [List.foldl_cons]
    rw [show replacePiece cs (sub cs) (.kslot k) = .kslot k from by
      rw [replacePiece, if_neg (fun he : k.toList = cs =>
        hnd (fun c hc => hdig cs (List.mem_cons_self cs L) c (he ▸ hc)))]]
    exact ih k (fun x hx => hdig x (List.mem_cons_of_mem cs hx)) hnd

theorem applyL_kslot_mem (sub : List Char → List Char) :
    ∀ (L : List (List Char)) (k : String), k.toList ∈ L →
      L.foldl (fun q cs => replacePiece cs (sub cs) q) (.kslot k)
        = .lit (String.mk (sub k.toList)) := by
  intro L
  induction L with
  | nil => intro k h; exact absurd h (List.not_mem_nil _)
  | cons cs L ih =>
    intro k hmem
    rw [List.foldl_cons]
    by_cases h : k.toList = cs
    · rw [show replacePiece cs (sub cs) (.kslot k) = .lit (String.mk (sub cs)) from by
        rw [replacePiece, if_pos h]]
      rw [applyL_lit sub L, h]
    · rw [show replacePiece cs (sub cs) (.kslot k) = .kslot k from by
        rw [replacePiece, if_neg h]]
      rcases List.mem_cons.mp hmem with hh | hh
      · exact absurd hh h
      · exact ih k hh

theorem toList_mk (l : List Char) : (String.mk l).toList = l := rfl

theorem islotsOf_mem {ds : List Char} {ps : List SPiece} (h : SPiece.islot ds ∈ ps) :
    ds ∈ islotsOf ps := List.mem_filterMap.mpr ⟨.islot ds, h, rfl⟩

theorem kslotsOf_mem {k : String} {ps : List SPiece} (h : SPiece.kslot k ∈ ps) :
    k.toList ∈ kslotsOf ps := List.mem_filterMap.mpr ⟨.kslot k, h, rfl⟩

/-- The net effect of the index-`findall` replacement pass on one piece. -/
def idxApply (groups : List (Option String)) (wrapper : WrapFn) : SPiece → SPiece
  | .islot ds => .lit (substIdx groups wrapper (natOfDigits ds))
  | p => p

/-- The net effect of the key-`findall` replacement pass on one piece. -/
def keyApply (gdict : List (String × Option String)) (wrapper : WrapFn) : SPiece → SPiece
  | .kslot k => .lit (substKey gdict wrapper k)
  | p => p

theorem rewriteUnit_render_notfull (groups : List (Option String))
    (gdict : List (String × Option String)) (wrapper : WrapFn) (ps : List SPiece)
    (hwf : ∀ p ∈ ps, wfScanPiece p)
    (hsubI : ∀ n, braceFree (substIdx groups wrapper n).toList)
    (hsubK : ∀ k, braceFree (substKey gdict wrapper k).toList)
    (hI : idxSlotFull (renderPieces ps) = none)
    (hK : keySlotFull (renderPieces ps) = none) :
    rewriteUnit groups gdict wrapper (renderPieces ps)
      = specRewriteUnit groups gdict wrapper ps := by
  have hIl : ∀ ds ∈ islotsOf ps, ds ≠ [] ∧ (∀ c ∈ ds, isDigitC c = true) ∧
      Nat.repr (natOfDigits ds) = String.mk ds := by
    intro ds hds
    exact hwf _ (mem_islotsOf hds)
  have h1 : idxFindall (renderPieces ps) = islotsOf ps := by
    rw [idxFindall, scan_render isDigitC (by decide) (by decide) ps hwf]
    exact filterMap_scan_digit ps hwf
  have hfoldI : (islotsOf ps).foldl
      (fun acc ds => replaceAll ('{' :: (Nat.repr (natOfDigits ds)).toList ++ ['}'])
        (substIdx groups wrapper (natOfDigits ds)).toList acc) (renderPieces ps)
    = (islotsOf ps).foldl
      (fun acc ds => replaceAll ('{' :: ds ++ ['}'])
        (substIdx groups wrapper (natOfDigits ds)).toList acc) (renderPieces ps) := by
    apply foldl_ext
    intro ds hds acc
    rw [(hIl ds hds).2.2, toList_mk]
  have h2 : (islotsOf ps).foldl
      (fun acc ds => replaceAll ('{' :: ds ++ ['}'])
        (substIdx groups wrapper (natOfDigits ds)).toList acc) (renderPieces ps)
    = renderPieces ((islotsOf ps).foldl
        (fun qs ds => qs.map
          (replacePiece ds (substIdx groups wrapper (natOfDigits ds)).toList)) ps) :=
    fold_replace_render (fun ds => (substIdx groups wrapper (natOfDigits ds)).toList)
      (fun cs => hsubI (natOfDigits cs)) (islotsOf ps) ps
      (fun cs hcs hm => (digit_no_brace ((hIl cs hcs).2.1 _ hm)).2 rfl)
      hwf
  have h3 : (islotsOf ps).foldl
      (fun qs ds => qs.map
        (replacePiece ds (substIdx groups wrapper (natOfDigits ds)).toList)) ps
    = ps.map (fun p => (islotsOf ps).foldl
        (fun q ds => replacePiece ds (substIdx groups wrapper (natOfDigits ds)).toList q) p) :=
    foldl_map_comm _ (islotsOf ps) ps
  have h4 : ps.map (fun p => (islotsOf ps).foldl
      (fun q ds => replacePiece ds (substIdx groups wrapper (natOfDigits ds)).toList q) p)
    = ps.map (idxApply groups wrapper) := by
    apply List.map_congr_left
    intro p hp
    cases p with
    | lit s => rw [applyL_lit]; rfl
    | islot ds =>
      rw [applyL_islot _ (islotsOf ps) ds (islotsOf_mem hp)]
      rfl
    | kslot k =>
      rw [applyL_kslot_digits _ (islotsOf ps) k (fun cs hcs => (hIl cs hcs).2.1)
        (hwf _ hp).2.2]
      rfl
  have hwf1 : ∀ q ∈ ps.map (idxApply groups wrapper), wfScanPiece q := by
    intro q hq
    rcases List.mem_map.mp hq with ⟨p, hp, he⟩
    rw [← he]
    cases p with
    | lit s => exact hwf _ hp
    | islot ds => exact hsubI (natOfDigits ds)
    | kslot k => exact hwf _ hp
  have hni1 : ∀ ds, SPiece.islot ds ∉ ps.map (idxApply groups wrapper) := by
    intro ds hmem
    rcases List.mem_map.mp hmem with ⟨p, _, he⟩
    cases p with
    | lit s => exact SPiece.noConfusion (show SPiece.lit s = SPiece.islot ds from he)
    | islot es =>
      exact SPiece.noConfusion
        (show SPiece.lit (substIdx groups wrapper (natOfDigits es)) = SPiece.islot ds from he)
    | kslot k => exact SPiece.noConfusion (show SPiece.kslot k = SPiece.islot ds from he)
  have hKl : ∀ ks ∈ kslotsOf (ps.map (idxApply groups wrapper)), '}' ∉ ks := by
    intro ks hks hm
    rcases mem_kslotsOf hks with ⟨k, hkt, hkm⟩
    exact (word_no_brace ((hwf1 _ hkm).2.1 '}' (by rw [hkt]; exact hm))).2 rfl
  have h5 : keyFindall (renderPieces (ps.map (idxApply groups wrapper)))
      = kslotsOf (ps.map (idxApply groups wrapper)) := by
    rw [keyFindall, scan_render isWordC (by decide) (by decide) _ hwf1]
    exact filterMap_scan_word _ hwf1 hni1
  have h6 : (kslotsOf (ps.map (idxApply groups wrapper))).foldl
      (fun acc ks => replaceAll ('{' :: ks ++ ['}'])
        (substKey gdict wrapper (String.mk ks)).toList acc)
      (renderPieces (ps.map (idxApply groups wrapper)))
    = renderPieces ((kslotsOf (ps.map (idxApply groups wrapper))).foldl
        (fun qs ks => qs.map
          (replacePiece ks (substKey gdict wrapper (String.mk ks)).toList))
        (ps.map (idxApply groups wrapper))) :=
    fold_replace_render (fun ks => (substKey gdict wrapper (String.mk ks)).toList)
      (fun cs => hsubK (String.mk cs)) _ _ hKl hwf1
  have h7 : (kslotsOf (ps.map (idxApply groups wrapper))).foldl
      (fun qs ks => qs.map
        (replacePiece ks (substKey gdict wrapper (String.mk ks)).toList))
      (ps.map (idxApply groups wrapper))
    = (ps.map (idxApply groups wrapper)).map
        (fun p => (kslotsOf (ps.map (idxApply groups wrapper))).foldl
          (fun q ks => replacePiece ks (substKey gdict wrapper (String.mk ks)).toList q) p) :=
    foldl_map_comm _ _ _
  have h8 : (ps.map (idxApply groups wrapper)).map
      (fun p => (kslotsOf (ps.map (idxApply groups wrapper))).foldl
        (fun q ks => replacePiece ks (substKey gdict wrapper (String.mk ks)).toList q) p)
    = (ps.map (idxApply groups wrapper)).map (keyApply gdict wrapper) := by
    apply List.map_congr_left
    intro q hq
    cases q with
    | lit s => rw [applyL_lit]; rfl
    | islot ds => exact absurd hq (hni1 ds)
    | kslot k =>
      rw [applyL_kslot_mem _ _ k (kslotsOf_mem hq)]
      rfl
  have h9 : renderPieces ((ps.map (idxApply groups wrapper)).map (keyApply gdict wrapper))
      = (ps.map (specSubstPiece groups gdict wrapper)).join := by
    rw [renderPieces, List.map_map, List.map_map]
    have : (renderPiece ∘ keyApply gdict wrapper) ∘ idxApply groups wrapper
        = specSubstPiece groups gdict wrapper := by
      funext p
      cases p with
      | lit s => rfl
      | islot ds => rfl
      | kslot k => rfl
    rw [this]
  simp only [rewriteUnit, hI, hK]
  rw [h1, hfoldI, h2, h3, h4, h5, h6, h7, h8, h9, specRewriteUnit, specSubstUnit]

theorem mk_toList (s : String) : String.mk s.toList = s := rfl

theorem rewriteUnit_spec (groups : List (Option String))
    (gdict : List (String × Option String)) (wrapper : WrapFn) (ps : List SPiece)
    (hwf : ∀ p ∈ ps, wfUnitPiece p)
    (hsubI : ∀ n, braceFree (substIdx groups wrapper n).toList)
    (hsubK : ∀ k, braceFree (substKey gdict wrapper k).toList)
    (hneI : ∀ (n : ℕ) (h : n < groups.length) (s : String),
      groups.get ⟨n, h⟩ = some s → substIdx groups wrapper n ≠ "")
    (hneK : ∀ (k s : String), alookup gdict k = some (some s) →
      substKey gdict wrapper k ≠ "") :
    rewriteUnit groups gdict wrapper (renderPieces ps)
      = specRewriteUnit groups gdict wrapper ps := by
  have hwfs : ∀ p ∈ ps, wfScanPiece p := fun p hp => (hwf p hp).1
  rcases ps with _ | ⟨p, ps'⟩
  · rfl
  cases p with
  | lit s =>
    obtain ⟨c, t, hct⟩ : ∃ c t, s.toList = c :: t := by
      cases hs : s.toList with
      | nil =>
        have := renderPiece_ne_nil (.lit s) (hwf _ (List.mem_cons_self _ _))
        rw [renderPiece] at this
        exact absurd hs this
      | cons c t => exact ⟨c, t, rfl⟩
    have hb : braceFree s.toList := (hwf _ (List.mem_cons_self _ _)).1
    have hcne : c ≠ '{' := by
      intro he
      apply hb.1
      rw [hct, ← he]
      exact List.mem_cons_self c t
    have hren : renderPieces (.lit s :: ps') = c :: (t ++ renderPieces ps') := by
      rw [renderPieces_cons, show renderPiece (SPiece.lit s) = s.toList from rfl, hct]
      rfl
    exact rewriteUnit_render_notfull groups gdict wrapper _ hwfs hsubI hsubK
      (by rw [hren]; exact idxSlotFull_head_ne c _ hcne)
      (by rw [hren]; exact keySlotFull_head_ne c _ hcne)
  | islot ds =>
    obtain ⟨hne, hall, hcan⟩ : ds ≠ [] ∧ (∀ c ∈ ds, isDigitC c = true) ∧
        Nat.repr (natOfDigits ds) = String.mk ds := (hwf _ (List.mem_cons_self _ _)).1
    rcases ps' with _ | ⟨q, ps''⟩
    · have hren : renderPieces [SPiece.islot ds] = '{' :: ds ++ '}' :: ([] : List Char) := by
        rw [renderPieces_cons, renderPiece]
        simp [renderPieces]
      have hrhs : specRewriteUnit groups gdict wrapper [SPiece.islot ds]
          = (if ((substIdx groups wrapper (natOfDigits ds)).toList).isEmpty then none
             else some ((substIdx groups wrapper (natOfDigits ds)).toList)) := by
        rw [specRewriteUnit, specSubstUnit]
        simp only [List.map_cons, List.map_nil, specSubstPiece, List.join,
          List.flatten_cons, List.flatten_nil, List.append_nil]
      have hIf : idxSlotFull (renderPieces [SPiece.islot ds]) = some ds := by
        rw [hren, idxSlotFull_digits ds [] hne hall, if_pos rfl]
      simp only [rewriteUnit, hIf]
      rw [hrhs]
      by_cases hlt : natOfDigits ds < groups.length
      · rw [dif_pos hlt]
        cases hget : groups.get ⟨natOfDigits ds, hlt⟩ with
        | none =>
          simp only [hget]
          have hsub : substIdx groups wrapper (natOfDigits ds) = "" := by
            rw [substIdx, dif_pos hlt, hget]
          rw [hsub]
          rfl
        | some s =>
          simp only [hget]
          have hsub : substIdx groups wrapper (natOfDigits ds)
              = pyOrStr (wrapper (.inl (natOfDigits ds)) s) s := by
            rw [substIdx, dif_pos hlt, hget]
          have hnem := stringNeEmptyToList (hneI _ hlt s hget)
          rw [if_neg (by simpa using hnem), hsub]
      · rw [dif_neg hlt]
        have hsub : substIdx groups wrapper (natOfDigits ds) = "" := by
          rw [substIdx, dif_neg hlt]
        rw [hsub]
        rfl
    · have hRne : renderPieces (q :: ps'') ≠ [] :=
        renderPieces_cons_ne_nil q ps'' (hwf q (List.mem_cons_of_mem _ (List.mem_cons_self _ _)))
      have hren : renderPieces (SPiece.islot ds :: q :: ps'')
          = '{' :: ds ++ '}' :: renderPieces (q :: ps'') := by
        rw [renderPieces_cons, renderPiece]
        simp
      exact rewriteUnit_render_notfull groups gdict wrapper _ hwfs hsubI hsubK
        (by rw [hren, idxSlotFull_digits ds _ hne hall, if_neg hRne])
        (by rw [hren, keySlotFull_words ds _ hne (fun c hc => digit_is_word (hall c hc)),
          if_neg hRne])
  | kslot k =>
    obtain ⟨hne, hall, hnd⟩ : k.toList ≠ [] ∧ (∀ c ∈ k.toList, isWordC c = true) ∧
        ¬(∀ c ∈ k.toList, isDigitC c = true) := (hwf _ (List.mem_cons_self _ _)).1
    rcases ps' with _ | ⟨q, ps''⟩
    · have hren : renderPieces [SPiece.kslot k]
          = '{' :: k.toList ++ '}' :: ([] : List Char) := by
        rw [renderPieces_cons, renderPiece]
        simp [renderPieces]
      have hrhs : specRewriteUnit groups gdict wrapper [SPiece.kslot k]
          = (if ((substKey gdict wrapper k).toList).isEmpty then none
             else some ((substKey gdict wrapper k).toList)) := by
        rw [specRewriteUnit, specSubstUnit]
        simp only [List.map_cons, List.map_nil, specSubstPiece, List.join,
          List.flatten_cons, List.flatten_nil, List.append_nil]
      have hIn : idxSlotFull (renderPieces [SPiece.kslot k]) = none := by
        rw [hren]
        exact idxSlotFull_word_none k.toList [] hall hnd
      have hKf : keySlotFull (renderPieces [SPiece.kslot k]) = some k.toList := by
        rw [hren, keySlotFull_words k.toList [] hne hall, if_pos rfl]
      simp only [rewriteUnit, hIn, hKf]
      rw [hrhs, mk_toList]
      cases halk : alookup gdict k with
      | none =>
        simp only [halk]
        have hsub : substKey gdict wrapper k = "" := by
          rw [substKey, halk]
        rw [hsub]
        rfl
      | some v =>
        cases v with
        | none =>
          simp only [halk]
          have hsub : substKey gdict wrapper k = "" := by
            rw [substKey, halk]
          rw [hsub]
          rfl
        | some s =>
          simp only [halk]
          have hsub : substKey gdict wrapper k = pyOrStr (wrapper (.inr k) s) s := by
            rw [substKey, halk]
          have hnem := stringNeEmptyToList (hneK k s halk)
          rw [if_neg (by simpa using hnem), hsub]
    · have hRne : renderPieces (q :: ps'') ≠ [] :=
        renderPieces_cons_ne_nil q ps'' (hwf q (List.mem_cons_of_mem _ (List.mem_cons_self _ _)))
      have hren : renderPieces (SPiece.kslot k :: q :: ps'')
          = '{' :: k.toList ++ '}' :: renderPieces (q :: ps'') := by
        rw [renderPieces_cons, renderPiece]
        simp
      exact rewriteUnit_render_notfull groups gdict wrapper _ hwfs hsubI hsubK
        (by rw [hren]; exact idxSlotFull_word_none k.toList _ hall hnd)
        (by rw [hren, keySlotFull_words k.toList _ hne hall, if_neg hRne])

theorem handle_shortcut_reg_acc (groups : List (Option String))
    (gdict : List (String × Option String)) (wrapper : WrapFn)
    (hsubI : ∀ n, braceFree (substIdx groups wrapper n).toList)
    (hsubK : ∀ k, braceFree (substKey gdict wrapper k).toList)
    (hneI : ∀ (n : ℕ) (h : n < groups.length) (s : String),
      groups.get ⟨n, h⟩ = some s → substIdx groups wrapper n ≠ "")
    (hneK : ∀ (k s : String), alookup gdict k = some (some s) →
      substKey gdict wrapper k ≠ "") :
    ∀ (units : List (List SPiece)) (acc : List DToken),
      (∀ ps ∈ units, ∀ p ∈ ps, wfUnitPiece p) →
      (units.map (fun ps => DToken.str (String.mk (renderPieces ps)))).foldl
        (fun acc unit =>
          match unit with
          | .obj n => acc ++ [.obj n]
          | .str u =>
            match rewriteUnit groups gdict wrapper u.toList with
            | some cs => acc ++ [.str (String.mk cs)]
            | none => acc) acc
      = acc ++ units.filterMap (fun ps =>
          (specRewriteUnit groups gdict wrapper ps).map
            (fun cs => DToken.str (String.mk cs))) := by
  intro units
  induction units with
  | nil =>
    intro acc _
    rw [List.map_nil, List.foldl_nil, List.filterMap_nil, List.append_nil]
  | cons ps units ih =>
    intro acc hwf
    have hwfh := hwf ps (List.mem_cons_self ps units)
    have hwft : ∀ qs ∈ units, ∀ p ∈ qs, wfUnitPiece p :=
      fun qs hqs => hwf qs (List.mem_cons_of_mem ps hqs)
    have hspec : rewriteUnit groups gdict wrapper
        (String.mk (renderPieces ps)).toList = specRewriteUnit groups gdict wrapper ps := by
      rw [toList_mk]
      exact rewriteUnit_spec groups gdict wrapper ps hwfh hsubI hsubK hneI hneK
    rw [List.map_cons, List.foldl_cons, List.filterMap_cons]
    cases hsr : specRewriteUnit groups gdict wrapper ps with
    | none =>
      simp only [hspec, hsr, Option.map_none']
      exact ih acc hwft
    | some cs =>
      simp only [hspec, hsr, Option.map_some']
      rw [ih (acc ++ [DToken.str (String.mk cs)]) hwft, List.append_assoc]
      rfl

/-- C8 (amended): source `_handle_shortcut_reg` (`_handlers.py` lines
568-615) realises the spec's slot-substitution semantics
(`specSubstUnit`, §4.6 verbatim) exactly on the region delimited by the
divergences exhibited in `shortcut_reg_slot_divergences`, and with the
source's drop-empty-unit behaviour applied on top.  Each string unit is
a rendered decomposition into non-empty brace-free literal text, index
slots `\x7bN\x7d`, and named slots `\x7bname\x7d`; the hypotheses are
the provisos the counterexample's four parts force, one each: index
slots are written canonically — as Python prints the parsed integer
back — (part 1: `\x7b007\x7d` is erased, not substituted), substitution
texts for existing matched groups are non-empty (parts 2 and 3: an empty
substitution is kept as an empty token by the fullmatch path but dropped
by the embedded path, so no uniform piecewise semantics covers it), and
substitution texts are brace-free (part 4: a captured `"\x7b1\x7d"` is
re-scanned and erased by the key pass).  Under these: every index slot
becomes the captured text of group N (after the wrapper), every named
slot the captured text of that named group, missing or unmatched groups
contribute the empty string, and a unit whose whole rewrite is empty is
dropped from the token data — the last clause being the source's
`if unit:` guard (line 613), absent from §4.6's words. -/
theorem handle_shortcut_reg_spec (groups : List (Option String))
    (gdict : List (String × Option String)) (wrapper : WrapFn)
    (units : List (List SPiece))
    (hwf : ∀ ps ∈ units, ∀ p ∈ ps, wfUnitPiece p)
    (hsubI : ∀ n, braceFree (substIdx groups wrapper n).toList)
    (hsubK : ∀ k, braceFree (substKey gdict wrapper k).toList)
    (hneI : ∀ (n : ℕ) (h : n < groups.length) (s : String),
      groups.get ⟨n, h⟩ = some s → substIdx groups wrapper n ≠ "")
    (hneK : ∀ (k s : String), alookup gdict k = some (some s) →
      substKey gdict wrapper k ≠ "") :
    handle_shortcut_reg
        (units.map (fun ps => DToken.str (String.mk (renderPieces ps))))
        groups gdict wrapper
      = units.filterMap (fun ps =>
          (specRewriteUnit groups gdict wrapper ps).map
            (fun cs => DToken.str (String.mk cs))) := by
  rw [handle_shortcut_reg]
  exact handle_shortcut_reg_acc groups gdict wrapper hsubI hsubK hneI hneK units [] hwf

/-- C8 witness: rewriting the unit `"a\x7b0\x7d\x7bname\x7d"` against one
positional group capturing `"X"` and a named group `name` capturing `"Y"`
(wrapper returning `None`) yields the single token `"aXY"`. -/
theorem handle_shortcut_reg_spec_witness :
    handle_shortcut_reg [DToken.str "a\x7b0\x7d\x7bname\x7d"]
        [some "X"] [("name", some "Y")] (fun _ _ => none) = [DToken.str "aXY"] := by
  rw [show [DToken.str "a\x7b0\x7d\x7bname\x7d"]
      = [[SPiece.lit "a", SPiece.islot ['0'], SPiece.kslot "name"]].map
          (fun ps => DToken.str (String.mk (renderPieces ps))) from rfl]
  rw [handle_shortcut_reg_spec [some "X"] [("name", some "Y")] (fun _ _ => none)
    [[SPiece.lit "a", SPiece.islot ['0'], SPiece.kslot "name"]]
    (by
      intro ps hps p hp
      rw [List.mem_singleton] at hps
      subst hps
      rcases List.mem_cons.mp hp with h | hp'
      · subst h
        exact ⟨⟨by decide, by decide⟩, fun s hs => by
          injection hs with h'
          rw [← h']
          decide⟩
      rcases List.mem_cons.mp hp' with h | hp''
      · subst h
        exact ⟨⟨by decide, by decide, by decide⟩, fun s hs => SPiece.noConfusion hs⟩
      rcases List.mem_cons.mp hp'' with h | hp3
      · subst h
        exact ⟨⟨by decide, by decide, by decide⟩, fun s hs => SPiece.noConfusion hs⟩
      · exact absurd hp3 (List.not_mem_nil p))
    (by
      intro n
      match n with
      | 0 => exact ⟨by decide, by decide⟩
      | n + 1 =>
        rw [substIdx, dif_neg (by simp)]
        exact ⟨by decide, by decide⟩)
    (by
      intro k
      by_cases hk : k = "name"
      · rw [hk]
        exact ⟨by decide, by decide⟩
      · have ha : alookup [("name", some "Y")] k = none := by
          rw [alookup, if_neg hk, alookup]
        simp only [substKey, ha]
        exact ⟨by decide, by decide⟩)
    (by
      intro n h s hget
      have h1 : n < 1 := by simpa using h
      have h0 : n = 0 := by omega
      subst h0
      decide)
    (by
      intro k s halk
      by_cases hk : k = "name"
      · rw [hk]
        decide
      · rw [alookup, if_neg hk, alookup] at halk
        exact absurd halk (by simp))]
  rfl
